import Mathlib

/-!
Formal model of `nanobot/session/manager.py`: the `Session` data type with
anchor-based history windowing, and the `SessionManager` persistence layer
(JSONL serialization, loading with self-healing normalization, caching,
and session listing).

Python `dict`s holding JSON data are modelled as association lists of
`String × JVal` in insertion order; Python truthiness is modelled by
`JVal.truthy`; `datetime` values are modelled by their ISO string form
(`isoformat` is the identity of the model); the nondeterministic
`datetime.now()` becomes an explicit `now` argument.
-/

set_option maxHeartbeats 1000000

namespace Nanobot

/-- JSON values (Python objects that appear in session files and message
dicts).  Numbers are modelled as integers: the session layer never
manipulates numeric values, it only stores and reloads them. -/
inductive JVal where
  | null : JVal
  | bool (b : Bool) : JVal
  | num (n : Int) : JVal
  | str (s : String) : JVal
  | arr (elems : List JVal) : JVal
  | obj (fields : List (String × JVal)) : JVal
  deriving Repr

mutual

/-- Structural equality test on JSON values. -/
def JVal.beq : JVal → JVal → Bool
  | .null, .null => true
  | .bool a, .bool b => a == b
  | .num a, .num b => a == b
  | .str a, .str b => a == b
  | .arr xs, .arr ys => JVal.beqList xs ys
  | .obj xs, .obj ys => JVal.beqFields xs ys
  | _, _ => false

/-- Equality test on JSON arrays. -/
def JVal.beqList : List JVal → List JVal → Bool
  | [], [] => true
  | x :: xs, y :: ys => JVal.beq x y && JVal.beqList xs ys
  | _, _ => false

/-- Equality test on JSON object field lists. -/
def JVal.beqFields : List (String × JVal) → List (String × JVal) → Bool
  | [], [] => true
  | (k1, v1) :: xs, (k2, v2) :: ys => k1 == k2 && JVal.beq v1 v2 && JVal.beqFields xs ys
  | _, _ => false

end

mutual

theorem JVal.eq_of_beq : ∀ (a b : JVal), JVal.beq a b = true → a = b
  | .null, .null, _ => rfl
  | .bool _, .bool _, h => by simp only [JVal.beq, beq_iff_eq] at h; rw [h]
  | .num _, .num _, h => by simp only [JVal.beq, beq_iff_eq] at h; rw [h]
  | .str _, .str _, h => by simp only [JVal.beq, beq_iff_eq] at h; rw [h]
  | .arr xs, .arr ys, h => by
      rw [JVal.eqList_of_beq xs ys (by simpa [JVal.beq] using h)]
  | .obj xs, .obj ys, h => by
      rw [JVal.eqFields_of_beq xs ys (by simpa [JVal.beq] using h)]
  | .null, .bool _, h | .null, .num _, h | .null, .str _, h | .null, .arr _, h | .null, .obj _, h => by simp [JVal.beq] at h
  | .bool _, .null, h | .bool _, .num _, h | .bool _, .str _, h | .bool _, .arr _, h | .bool _, .obj _, h => by simp [JVal.beq] at h
  | .num _, .null, h | .num _, .bool _, h | .num _, .str _, h | .num _, .arr _, h | .num _, .obj _, h => by simp [JVal.beq] at h
  | .str _, .null, h | .str _, .bool _, h | .str _, .num _, h | .str _, .arr _, h | .str _, .obj _, h => by simp [JVal.beq] at h
  | .arr _, .null, h | .arr _, .bool _, h | .arr _, .num _, h | .arr _, .str _, h | .arr _, .obj _, h => by simp [JVal.beq] at h
  | .obj _, .null, h | .obj _, .bool _, h | .obj _, .num _, h | .obj _, .str _, h | .obj _, .arr _, h => by simp [JVal.beq] at h

theorem JVal.eqList_of_beq : ∀ (xs ys : List JVal), JVal.beqList xs ys = true → xs = ys
  | [], [], _ => rfl
  | x :: xs, y :: ys, h => by
      simp only [JVal.beqList, Bool.and_eq_true] at h
      rw [JVal.eq_of_beq x y h.1, JVal.eqList_of_beq xs ys h.2]
  | [], _ :: _, h => by simp [JVal.beqList] at h
  | _ :: _, [], h => by simp [JVal.beqList] at h

theorem JVal.eqFields_of_beq : ∀ (xs ys : List (String × JVal)), JVal.beqFields xs ys = true → xs = ys
  | [], [], _ => rfl
  | (k1, v1) :: xs, (k2, v2) :: ys, h => by
      simp only [JVal.beqFields, Bool.and_eq_true, beq_iff_eq] at h
      rw [h.1.1, JVal.eq_of_beq v1 v2 h.1.2, JVal.eqFields_of_beq xs ys h.2]
  | [], _ :: _, h => by simp [JVal.beqFields] at h
  | _ :: _, [], h => by simp [JVal.beqFields] at h

end

mutual

theorem JVal.beq_refl : ∀ (a : JVal), JVal.beq a a = true
  | .null => rfl
  | .bool _ => by simp [JVal.beq]
  | .num _ => by simp [JVal.beq]
  | .str _ => by simp [JVal.beq]
  | .arr xs => by simp [JVal.beq, JVal.beqList_refl xs]
  | .obj xs => by simp [JVal.beq, JVal.beqFields_refl xs]

theorem JVal.beqList_refl : ∀ (xs : List JVal), JVal.beqList xs xs = true
  | [] => rfl
  | x :: xs => by simp [JVal.beqList, JVal.beq_refl x, JVal.beqList_refl xs]

theorem JVal.beqFields_refl : ∀ (xs : List (String × JVal)), JVal.beqFields xs xs = true
  | [] => rfl
  | (k, v) :: xs => by simp [JVal.beqFields, JVal.beq_refl v, JVal.beqFields_refl xs]

end

instance : DecidableEq JVal := fun a b =>
  if h : JVal.beq a b = true then .isTrue (JVal.eq_of_beq a b h)
  else .isFalse (fun he => h (he ▸ JVal.beq_refl a))

/-- A Python dict with JSON content: association list in insertion order,
keys unique in every dict actually built. -/
abbrev JDict := List (String × JVal)

/-- Python `d.get(k)` / `k in d`: first binding of `k`, if any. -/
def dget : JDict → String → Option JVal
  | [], _ => none
  | p :: d, k => if p.1 == k then some p.2 else dget d k

/-- Python truthiness of a JSON value (`not value` is `!truthy value`). -/
def JVal.truthy : JVal → Bool
  | .null => false
  | .bool b => b
  | .num n => n != 0
  | .str s => !s.isEmpty
  | .arr xs => !xs.isEmpty
  | .obj fs => !fs.isEmpty

/-- Truthiness of `d.get(k)` (absent key gives `None`, which is falsy). -/
def truthyOpt : Option JVal → Bool
  | none => false
  | some v => v.truthy

/-- Python dict insert `d[k] = v`: overwrite in place if the key exists
(keeping its position), else append. -/
def dinsert (d : JDict) (k : String) (v : JVal) : JDict :=
  if d.any (fun p => p.1 == k) then
    d.map (fun p => if p.1 == k then (k, v) else p)
  else d ++ [(k, v)]

/-- Python dict-literal merge `{**d, **kws}`. -/
def dmerge (d : JDict) (kws : JDict) : JDict :=
  kws.foldl (fun acc p => dinsert acc p.1 p.2) d

/-- `Session` (manager.py lines 14-31).  `created_at`/`updated_at` are ISO
strings; `metadata` is an arbitrary JSON value (the code never inspects
it); `last_consolidated` is stored as loaded, `0` initially. -/
structure Session where
  key : String
  messages : List JDict := []
  created_at : String := ""
  updated_at : String := ""
  metadata : JVal := .obj []
  last_consolidated : JVal := .num 0
  deriving Repr, DecidableEq

/-- `Session(key=key)` with field defaults (`datetime.now()` becomes `now`). -/
def Session.fresh (key : String) (now : String) : Session :=
  { key := key, created_at := now, updated_at := now }

/-- `Session.add_message` (lines 33-42): appends
`{"role": role, "content": content, "timestamp": now, **kwargs}` and
bumps `updated_at`.  (Python forbids `role`/`content` among `**kwargs`;
`dmerge` gives the dict-literal semantics for the remaining keys.) -/
def Session.add_message (s : Session) (role content : String) (kwargs : JDict)
    (now : String) : Session :=
  { s with
    messages := s.messages ++
      [dmerge [("role", .str role), ("content", .str content),
               ("timestamp", .str now)] kwargs],
    updated_at := now }

/-- `Session._is_context_anchor` (lines 44-52). -/
def isContextAnchor (m : JDict) : Bool :=
  let role := dget m "role"
  if role = some (.str "user") then true
  else if role ≠ some (.str "assistant") then false
  else !truthyOpt (dget m "tool_calls")

/-- `Session.count_context_messages` (lines 54-56). -/
def Session.count_context_messages (s : Session) : Nat :=
  (s.messages.filter isContextAnchor).length

/-- The backward accumulation loop of `get_history` (lines 63-70), acting
on the reversed message list with the running anchor count `seen`:
append each message; on an anchor, bump the count and stop once it
reaches `maxMessages`. -/
def selectRev (maxMessages : Int) : List JDict → Int → List JDict
  | [], _ => []
  | m :: rest, seen =>
    if isContextAnchor m then
      if seen + 1 ≥ maxMessages then [m]
      else m :: selectRev maxMessages rest (seen + 1)
    else m :: selectRev maxMessages rest seen

/-- The projection loop body of `get_history` (lines 72-78):
`{"role": m["role"], "content": m.get("content", "")}` plus the four
optional fields when present.  `none` models the `KeyError` raised when a
message has no `"role"` key. -/
def projectMsg (m : JDict) : Option JDict :=
  match dget m "role" with
  | none => none
  | some role =>
    some ([("role", role), ("content", (dget m "content").getD (.str ""))] ++
      (["tool_calls", "tool_call_id", "name", "reasoning_content"].filterMap
        (fun k => (dget m k).map (fun v => (k, v)))))

/-- `Session.get_history` (lines 58-79).  `some` is a normal return,
`none` a raised `KeyError` (message without `"role"`). -/
def Session.get_history (s : Session) (maxMessages : Int) : Option (List JDict) :=
  if maxMessages ≤ 0 then some []
  else ((selectRev maxMessages s.messages.reverse 0).reverse).mapM projectMsg

/-- `Session.clear` (lines 81-85). -/
def Session.clear (s : Session) (now : String) : Session :=
  { s with messages := [], last_consolidated := .num 0, updated_at := now }

/-- Number of context anchors in a message list. -/
def countAnchors (l : List JDict) : Nat := (l.filter isContextAnchor).length

theorem countAnchors_cons (m : JDict) (l : List JDict) :
    countAnchors (m :: l) = (if isContextAnchor m then 1 else 0) + countAnchors l := by
  by_cases h : isContextAnchor m <;> simp [countAnchors, List.filter_cons, h, Nat.add_comm]

theorem countAnchors_reverse (l : List JDict) :
    countAnchors l.reverse = countAnchors l := by
  simp [countAnchors, List.filter_reverse]

theorem countAnchors_append (l₁ l₂ : List JDict) :
    countAnchors (l₁ ++ l₂) = countAnchors l₁ + countAnchors l₂ := by
  simp [countAnchors, List.filter_append]

/-- The accumulation loop only ever selects a prefix of the reversed log. -/
theorem selectRev_prefix (k : Int) :
    ∀ (l : List JDict) (seen : Int), selectRev k l seen <+: l
  | [], _ => by simp [selectRev]
  | m :: rest, seen => by
    simp only [selectRev]
    split
    · split
      · exact ⟨rest, rfl⟩
      · exact List.cons_prefix_cons.mpr ⟨rfl, selectRev_prefix k rest (seen + 1)⟩
    · exact List.cons_prefix_cons.mpr ⟨rfl, selectRev_prefix k rest seen⟩

/-- Anchor count selected by the loop: the minimum of what is available
and what the remaining budget `k - seen` allows. -/
theorem countAnchors_selectRev (k : Int) :
    ∀ (l : List JDict) (seen : Int), seen < k →
      (countAnchors (selectRev k l seen) : Int) = min (countAnchors l : Int) (k - seen)
  | [], seen, h => by
    simp only [selectRev, countAnchors, List.filter_nil, List.length_nil, Nat.cast_zero]
    omega
  | m :: rest, seen, h => by
    simp only [selectRev]
    by_cases ha : isContextAnchor m
    · by_cases hstop : seen + 1 ≥ k
      · have hk : k - seen = 1 := by omega
        have h1 : (countAnchors (m :: rest) : Int) = 1 + countAnchors rest := by
          rw [countAnchors_cons, if_pos ha]; push_cast; ring
        have h2 : countAnchors [m] = 1 := by
          simp [countAnchors, List.filter_cons, ha]
        rw [if_pos ha, if_pos hstop, h2]
        omega
      · have hrec := countAnchors_selectRev k rest (seen + 1) (by omega)
        have h1 : (countAnchors (m :: rest) : Int) = 1 + countAnchors rest := by
          rw [countAnchors_cons, if_pos ha]; push_cast; ring
        simp only [ha, if_true, if_neg hstop]
        rw [countAnchors_cons, if_pos ha]
        push_cast
        omega
    · have hrec := countAnchors_selectRev k rest seen h
      have h1 : (countAnchors (m :: rest) : Int) = countAnchors rest := by
        rw [countAnchors_cons, if_neg ha]; push_cast; ring
      simp only [ha, if_false, Bool.false_eq_true]
      rw [countAnchors_cons, if_neg ha]
      push_cast
      omega

/-- When at least `k - seen` anchors are available, the loop stops exactly
at an anchor: the last selected message is an anchor. -/
theorem selectRev_last_anchor (k : Int) :
    ∀ (l : List JDict) (seen : Int), seen < k → k - seen ≤ (countAnchors l : Int) →
      ∃ p m, selectRev k l seen = p ++ [m] ∧ isContextAnchor m = true
  | [], seen, h1, h2 => by
    simp only [countAnchors, List.filter_nil, List.length_nil, Nat.cast_zero] at h2
    omega
  | m :: rest, seen, h1, h2 => by
    simp only [selectRev]
    by_cases ha : isContextAnchor m
    · by_cases hstop : seen + 1 ≥ k
      · exact ⟨[], m, by simp [ha, hstop], ha⟩
      · have h2' : k - (seen + 1) ≤ (countAnchors rest : Int) := by
          rw [countAnchors_cons, if_pos ha] at h2; push_cast at h2; omega
        obtain ⟨p, mm, hpm, hmm⟩ := selectRev_last_anchor k rest (seen + 1) (by omega) h2'
        exact ⟨m :: p, mm, by simp [ha, hstop, hpm], hmm⟩
    · have h2' : k - seen ≤ (countAnchors rest : Int) := by
        rw [countAnchors_cons, if_neg ha] at h2; push_cast at h2; omega
      obtain ⟨p, mm, hpm, hmm⟩ := selectRev_last_anchor k rest seen h1 h2'
      exact ⟨m :: p, mm, by simp [ha, hpm], hmm⟩

/-- When fewer than `k - seen` anchors are available, the loop never
breaks and selects the whole (reversed) log. -/
theorem selectRev_all (k : Int) :
    ∀ (l : List JDict) (seen : Int), seen + (countAnchors l : Int) < k →
      selectRev k l seen = l
  | [], _, _ => by simp [selectRev]
  | m :: rest, seen, h => by
    simp only [selectRev]
    by_cases ha : isContextAnchor m
    · have h1 : (countAnchors (m :: rest) : Int) = 1 + countAnchors rest := by
        rw [countAnchors_cons, if_pos ha]; push_cast; ring
      have hstop : ¬ (seen + 1 ≥ k) := by omega
      rw [if_pos ha, if_neg hstop, selectRev_all k rest (seen + 1) (by omega)]
    · have h1 : (countAnchors (m :: rest) : Int) = countAnchors rest := by
        rw [countAnchors_cons, if_neg ha]; push_cast; ring
      rw [if_neg ha, selectRev_all k rest seen (by omega)]

/-- Full characterization of `get_history` for a positive budget `k`:
the result is the projection of a contiguous suffix `t` of the log that
carries exactly `min(a, k)` anchors; when the log has at least `k`
anchors the suffix begins exactly at an anchor, and when it has fewer
than `k` the suffix is the whole log. -/
theorem get_history_spec (s : Session) (k : Int) (hk : 1 ≤ k) :
    ∃ t d : List JDict, s.messages = d ++ t ∧
      (countAnchors t : Int) = min (countAnchors s.messages : Int) k ∧
      s.get_history k = t.mapM projectMsg ∧
      (k ≤ (countAnchors s.messages : Int) →
        ∃ m rest, t = m :: rest ∧ isContextAnchor m = true) ∧
      ((countAnchors s.messages : Int) < k → t = s.messages ∧ d = []) := by
  obtain ⟨r, hr⟩ := selectRev_prefix k s.messages.reverse 0
  refine ⟨(selectRev k s.messages.reverse 0).reverse, r.reverse, ?_, ?_, ?_, ?_, ?_⟩
  · have h2 := congrArg List.reverse hr
    simp only [List.reverse_append, List.reverse_reverse] at h2
    exact h2.symm
  · rw [countAnchors_reverse, countAnchors_selectRev k _ 0 (by omega),
      countAnchors_reverse]
    omega
  · simp only [Session.get_history]
    rw [if_neg (by omega : ¬ k ≤ 0)]
  · intro hge
    obtain ⟨p, m, hpm, hm⟩ := selectRev_last_anchor k s.messages.reverse 0 (by omega)
      (by rw [countAnchors_reverse]; omega)
    exact ⟨m, p.reverse, by rw [hpm]; simp, hm⟩
  · intro hlt
    have hall := selectRev_all k s.messages.reverse 0
      (by rw [countAnchors_reverse]; omega)
    have hrnil : r = [] := by
      rw [hall] at hr
      have h0 : s.messages.reverse ++ r = s.messages.reverse ++ [] := by
        simpa using hr
      exact List.append_cancel_left h0
    constructor
    · rw [hall, List.reverse_reverse]
    · rw [hrnil, List.reverse_nil]

/-! Concrete message and session examples used by witnesses and
counterexamples. -/

/-- A user message. -/
def exUser : JDict :=
  [("role", .str "user"), ("content", .str "q"), ("timestamp", .str "t0")]

/-- An assistant message carrying a pending tool call (not an anchor). -/
def exToolCall : JDict :=
  [("role", .str "assistant"), ("content", .str ""), ("timestamp", .str "t1"),
   ("tool_calls", .arr [.obj [("id", .str "c1")]])]

/-- A tool-result message (not an anchor). -/
def exToolResult : JDict :=
  [("role", .str "tool"), ("content", .str "r"), ("timestamp", .str "t2"),
   ("tool_call_id", .str "c1")]

/-- A final assistant message with no tool calls (an anchor). -/
def exFinal : JDict :=
  [("role", .str "assistant"), ("content", .str "ans"), ("timestamp", .str "t3")]

/-- A four-message conversation: user, tool call, tool result, final answer. -/
def exSession : Session :=
  { key := "cli:1", messages := [exUser, exToolCall, exToolResult, exFinal] }

/-- A log whose oldest included anchor (for budget 1) is the final
assistant message, with a pending-tool-call assistant right before it. -/
def exSessionPending : Session :=
  { key := "cli:2", messages := [exToolCall, exFinal] }

/-- Two sessions with identical logs but different consolidation marks. -/
def exSessA : Session := { key := "k", messages := [exUser], last_consolidated := .num 0 }

/-- Companion of `exSessA` with a different `last_consolidated`. -/
def exSessB : Session := { key := "k", messages := [exUser], last_consolidated := .num 7 }

/-- An assistant message whose `tool_calls` value is the falsy string `""`. -/
def exFalsyToolCalls : JDict :=
  [("role", .str "assistant"), ("content", .str "x"), ("tool_calls", .str "")]

/-- History depends only on the message list. -/
theorem get_history_congr (s1 s2 : Session) (h : s1.messages = s2.messages)
    (n : Int) : s1.get_history n = s2.get_history n := by
  simp [Session.get_history, h]

/-- C1: for every Session and integer maxMessages: a non-positive budget
returns the empty sequence; for maxMessages = k ≥ 1 the history is the
documented field projection of a contiguous suffix of the log containing
exactly min(a, k) context anchors, with the non-anchor messages of the
suffix preserved intact and in chronological order. -/
theorem C1_get_history_window (s : Session) (k : Int) :
    (k ≤ 0 → s.get_history k = some []) ∧
    (1 ≤ k → ∃ t d, s.messages = d ++ t ∧
      (countAnchors t : Int) = min (countAnchors s.messages : Int) k ∧
      s.get_history k = t.mapM projectMsg) := by
  constructor
  · intro h; simp [Session.get_history, h]
  · intro hk
    obtain ⟨t, d, h1, h2, h3, -, -⟩ := get_history_spec s k hk
    exact ⟨t, d, h1, h2, h3⟩

/-- Witness for C1 at a concrete four-message session with budgets 0 and 1. -/
theorem C1_get_history_window_witness :
    exSession.get_history 0 = some [] ∧
    (∃ t d, exSession.messages = d ++ t ∧
      (countAnchors t : Int) = min (countAnchors exSession.messages : Int) 1 ∧
      exSession.get_history 1 = t.mapM projectMsg) :=
  ⟨(C1_get_history_window exSession 0).1 (by norm_num),
   (C1_get_history_window exSession 1).2 (by norm_num)⟩

/-- C2 counterexample: with budget 1 on a log ending in
(assistant with pending tool calls, final assistant anchor), the history
is just the projected final anchor — the pending-tool-call assistant
message immediately preceding the oldest included final-assistant anchor
is NOT included, contrary to the claim. -/
theorem C2_counterexample :
    exSessionPending.get_history 1 =
      some [[("role", JVal.str "assistant"), ("content", JVal.str "ans")]] ∧
    isContextAnchor exFinal = true ∧
    isContextAnchor exToolCall = false ∧
    projectMsg exToolCall = some
      [("role", JVal.str "assistant"), ("content", JVal.str ""),
       ("tool_calls", JVal.arr [JVal.obj [("id", JVal.str "c1")]])] ∧
    [(("role" : String), JVal.str "assistant"), ("content", JVal.str ""),
       ("tool_calls", JVal.arr [JVal.obj [("id", JVal.str "c1")]])] ∉
      [[(("role" : String), JVal.str "assistant"), ("content", JVal.str "ans")]] := by
  decide

/-- C2 (amended): for k ≥ 1, get_history returns the projection of a
contiguous suffix of the log, so every non-anchor message newer than the
oldest included anchor is included; but when the log holds at least k
anchors the window begins exactly at an anchor, so non-anchor messages —
in particular assistant messages with pending tool calls — immediately
preceding the oldest included anchor are excluded. -/
theorem C2_window_boundary (s : Session) (k : Int) (hk : 1 ≤ k) :
    ∃ t d, s.messages = d ++ t ∧ s.get_history k = t.mapM projectMsg ∧
      ((countAnchors s.messages : Int) < k → d = []) ∧
      (k ≤ (countAnchors s.messages : Int) →
        ∃ m rest, t = m :: rest ∧ isContextAnchor m = true) := by
  obtain ⟨t, d, h1, h2, h3, h4, h5⟩ := get_history_spec s k hk
  exact ⟨t, d, h1, h3, fun h => (h5 h).2, h4⟩

/-- Witness for the amended C2 at the concrete pending-tool-call session. -/
theorem C2_window_boundary_witness :
    ∃ t d, exSessionPending.messages = d ++ t ∧
      exSessionPending.get_history 1 = t.mapM projectMsg ∧
      ((countAnchors exSessionPending.messages : Int) < 1 → d = []) ∧
      (1 ≤ (countAnchors exSessionPending.messages : Int) →
        ∃ m rest, t = m :: rest ∧ isContextAnchor m = true) :=
  C2_window_boundary exSessionPending 1 (by norm_num)

/-- C7: clear empties the log (get_history returns the empty sequence for
every budget), resets last_consolidated to 0, and leaves the session key
and metadata unchanged. -/
theorem C7_clear (s : Session) (now : String) (n : Int) :
    (s.clear now).messages = [] ∧
    (s.clear now).get_history n = some [] ∧
    (s.clear now).last_consolidated = .num 0 ∧
    (s.clear now).key = s.key ∧
    (s.clear now).metadata = s.metadata := by
  refine ⟨rfl, ?_, rfl, rfl, rfl⟩
  by_cases h : n ≤ 0 <;>
    simp [Session.get_history, Session.clear, h, selectRev, List.mapM.loop]

/-- C8: history windowing never depends on last_consolidated: two
sessions with identical message lists produce identical get_history
results for every budget. -/
theorem C8_history_ignores_consolidation (s1 s2 : Session)
    (h : s1.messages = s2.messages) (n : Int) :
    s1.get_history n = s2.get_history n :=
  get_history_congr s1 s2 h n

/-- Witness for C8: identical logs, different last_consolidated. -/
theorem C8_history_ignores_consolidation_witness :
    exSessA.last_consolidated ≠ exSessB.last_consolidated ∧
    exSessA.get_history 5 = exSessB.get_history 5 :=
  ⟨by decide, C8_history_ignores_consolidation exSessA exSessB rfl 5⟩

/-- C10 counterexample: an assistant message whose tool_calls value is
the empty string — present, neither None nor an empty list — still
counts as a context anchor, because the code tests Python truthiness of
the value, not the three cases the claim lists. -/
theorem C10_counterexample :
    isContextAnchor exFalsyToolCalls = true ∧
    dget exFalsyToolCalls "role" = some (.str "assistant") ∧
    dget exFalsyToolCalls "tool_calls" = some (.str "") ∧
    JVal.str "" ≠ JVal.null ∧ JVal.str "" ≠ JVal.arr [] := by
  decide

/-- C10 (amended): a message counts as a context anchor iff its role is
"user", or its role is "assistant" and its tool_calls field is absent or
carries a Python-falsy value: None, an empty list, false, 0, the empty
string, or an empty object. An assistant message with a non-empty
tool_calls list is never an anchor, and no other role is an anchor. -/
theorem C10_anchor_iff (m : JDict) :
    isContextAnchor m = true ↔
      dget m "role" = some (.str "user") ∨
      (dget m "role" = some (.str "assistant") ∧
        (dget m "tool_calls" = none ∨ dget m "tool_calls" = some .null ∨
         dget m "tool_calls" = some (.arr []) ∨
         dget m "tool_calls" = some (.bool false) ∨
         dget m "tool_calls" = some (.num 0) ∨
         dget m "tool_calls" = some (.str "") ∨
         dget m "tool_calls" = some (.obj []))) := by
  unfold isContextAnchor
  by_cases hu : dget m "role" = some (.str "user")
  · simp [hu]
  · rw [if_neg hu]
    by_cases ha : dget m "role" = some (.str "assistant")
    · rw [if_neg (by simp [ha])]
      simp only [hu, false_or, ha, true_and, Bool.not_eq_true']
      cases htc : dget m "tool_calls" with
      | none => simp [truthyOpt]
      | some v =>
        cases v with
        | null => simp [truthyOpt, JVal.truthy]
        | bool b => cases b <;> simp [truthyOpt, JVal.truthy]
        | num n => simp [truthyOpt, JVal.truthy]
        | str s => simp [truthyOpt, JVal.truthy, String.isEmpty_iff]
        | arr xs => cases xs <;> simp [truthyOpt, JVal.truthy]
        | obj fs => cases fs <;> simp [truthyOpt, JVal.truthy]
    · rw [if_pos (by simp [ha])]
      simp [hu, ha]

/-! ### JSON serialization: `json.dumps(value, ensure_ascii=False)`.

The session store serializes each line with `json.dumps(obj,
ensure_ascii=False)` (default separators: item `", "`, key `": "`) and
parses with `json.loads`.  Both are modelled here over `JVal`, at the
level of character lists.  Modelling notes, relative to CPython's
`json`: floats, `NaN`/`Infinity` and `\\uXXXX` surrogate escapes are
outside the model (parsing them fails; the session layer never produces
them), and an object literal with duplicate keys is kept as written
rather than collapsed to its last binding (the serializer never emits
duplicate keys). -/

/-- The character "left curly brace". -/
def lbrace : Char := Char.ofNat 123

/-- The character "right curly brace". -/
def rbrace : Char := Char.ofNat 125

/-- How `json.dumps(_, ensure_ascii=False)` escapes one character inside
a string literal: backslash-escapes for quote, backslash and the short
control escapes, `\\u00XX` for the remaining control characters, and
every other character written directly. -/
def escapeChar (c : Char) : List Char :=
  if c = '"' then ['\\', '"']
  else if c = '\\' then ['\\', '\\']
  else if c = '\n' then ['\\', 'n']
  else if c = '\t' then ['\\', 't']
  else if c = '\r' then ['\\', 'r']
  else if c.toNat = 8 then ['\\', 'b']
  else if c.toNat = 12 then ['\\', 'f']
  else if c.toNat < 32 then
    ['\\', 'u', '0', '0', Nat.digitChar (c.toNat / 16), Nat.digitChar (c.toNat % 16)]
  else [c]

/-- JSON string literal for `s`: quote, escaped body, quote. -/
def encStr (s : String) : List Char :=
  '"' :: (s.data.map escapeChar).flatten ++ ['"']

/-- Decimal digits, most significant first; `fuel` bounds the recursion
depth (any `fuel > n` is enough). -/
def natDumpAux : Nat → Nat → List Char
  | 0, _ => []
  | fuel + 1, n =>
    if n < 10 then [Nat.digitChar n]
    else natDumpAux fuel (n / 10) ++ [Nat.digitChar (n % 10)]

/-- Decimal digits of a natural number, most significant first. -/
def natDump (n : Nat) : List Char := natDumpAux (n + 1) n

/-- Decimal form of an integer (`repr` of a Python int). -/
def intDump (n : Int) : List Char :=
  if n < 0 then '-' :: natDump n.natAbs else natDump n.toNat

mutual

/-- `json.dumps(v, ensure_ascii=False)` as a character list. -/
def JVal.dumpChars : JVal → List Char
  | .num n => intDump n
  | .bool false => ['f', 'a', 'l', 's', 'e']
  | .bool true => ['t', 'r', 'u', 'e']
  | .null => ['n', 'u', 'l', 'l']
  | .str s => encStr s
  | .arr xs => '[' :: JVal.dumpList xs ++ [']']
  | .obj fs => lbrace :: JVal.dumpFields fs ++ [rbrace]

/-- Array elements joined by the default item separator. -/
def JVal.dumpList : List JVal → List Char
  | [] => []
  | [x] => JVal.dumpChars x
  | x :: xs => JVal.dumpChars x ++ ',' :: ' ' :: JVal.dumpList xs

/-- Object members joined by the default separators. -/
def JVal.dumpFields : List (String × JVal) → List Char
  | [] => []
  | [(k, v)] => encStr k ++ ':' :: ' ' :: JVal.dumpChars v
  | (k, v) :: fs => encStr k ++ ':' :: ' ' :: JVal.dumpChars v ++ ',' :: ' ' :: JVal.dumpFields fs

end

/-- `json.dumps(v, ensure_ascii=False)` as a string. -/
def jdumps (v : JVal) : String := ⟨v.dumpChars⟩

/-! ### JSON parsing: `json.loads`. -/

/-- JSON whitespace (the four characters `json.loads` skips). -/
def isJsonWs (c : Char) : Bool :=
  c = ' ' || c = '\t' || c = '\n' || c = '\r'

/-- Drop leading JSON whitespace. -/
def skipWs : List Char → List Char
  | [] => []
  | c :: cs => if isJsonWs c then skipWs cs else c :: cs

/-- Value of one hexadecimal digit. -/
def hexVal (c : Char) : Option Nat :=
  if '0' ≤ c ∧ c ≤ '9' then some (c.toNat - 48)
  else if 'a' ≤ c ∧ c ≤ 'f' then some (c.toNat - 87)
  else if 'A' ≤ c ∧ c ≤ 'F' then some (c.toNat - 55)
  else none

/-- Parse the body of a JSON string literal after the opening quote,
returning the decoded characters and the input after the closing quote.
Raw control characters are rejected (CPython `strict=True`); surrogate
`\\uXXXX` escapes are outside the model and rejected. -/
def parseStringBody : List Char → Option (List Char × List Char)
  | [] => none
  | '"' :: cs => some ([], cs)
  | '\\' :: 'u' :: h1 :: h2 :: h3 :: h4 :: cs =>
    (match hexVal h1, hexVal h2, hexVal h3, hexVal h4 with
     | some a, some b, some c, some d =>
       let n := ((a * 16 + b) * 16 + c) * 16 + d
       if n < 55296 ∨ 57343 < n then
         (parseStringBody cs).map (fun r => (Char.ofNat n :: r.1, r.2))
       else none
     | _, _, _, _ => none)
  | '\\' :: e :: cs =>
    if e = '"' then (parseStringBody cs).map (fun r => ('"' :: r.1, r.2))
    else if e = '\\' then (parseStringBody cs).map (fun r => ('\\' :: r.1, r.2))
    else if e = '/' then (parseStringBody cs).map (fun r => ('/' :: r.1, r.2))
    else if e = 'b' then (parseStringBody cs).map (fun r => (Char.ofNat 8 :: r.1, r.2))
    else if e = 'f' then (parseStringBody cs).map (fun r => (Char.ofNat 12 :: r.1, r.2))
    else if e = 'n' then (parseStringBody cs).map (fun r => ('\n' :: r.1, r.2))
    else if e = 'r' then (parseStringBody cs).map (fun r => ('\r' :: r.1, r.2))
    else if e = 't' then (parseStringBody cs).map (fun r => ('\t' :: r.1, r.2))
    else none
  | c :: cs =>
    if c.toNat < 32 then none
    else (parseStringBody cs).map (fun r => (c :: r.1, r.2))

/-- Parse a run of decimal digits as a natural number, enforcing the
JSON grammar's no-leading-zero rule. -/
def parseDigits (cs : List Char) : Option (Nat × List Char) :=
  let ds := cs.takeWhile (·.isDigit)
  let rest := cs.dropWhile (·.isDigit)
  if ds.isEmpty then none
  else if 1 < ds.length ∧ ds.head? = some '0' then none
  else some (ds.foldl (fun a c => a * 10 + (c.toNat - 48)) 0, rest)

mutual

/-- Parse one JSON value beginning at the head of the input (leading
whitespace already skipped), with fuel bounding the number of nested
parse steps. -/
def parseVal : Nat → List Char → Option (JVal × List Char)
  | 0, _ => none
  | fuel + 1, cs =>
    match cs with
    | 'n' :: 'u' :: 'l' :: 'l' :: r => some (.null, r)
    | 't' :: 'r' :: 'u' :: 'e' :: r => some (.bool true, r)
    | 'f' :: 'a' :: 'l' :: 's' :: 'e' :: r => some (.bool false, r)
    | '"' :: r => (parseStringBody r).map (fun p => (.str ⟨p.1⟩, p.2))
    | '[' :: r =>
      match skipWs r with
      | ']' :: r2 => some (.arr [], r2)
      | r1 => parseArrElems fuel r1 []
    | '-' :: r => (parseDigits r).map (fun p => (.num (-(p.1 : Int)), p.2))
    | c :: r =>
      if c = lbrace then
        match skipWs r with
        | c2 :: r2 => if c2 = rbrace then some (.obj [], r2) else parseObjFields fuel (c2 :: r2) []
        | [] => none
      else (parseDigits (c :: r)).map (fun p => (.num (p.1 : Int), p.2))
    | [] => none

/-- Parse the remaining elements of a non-empty JSON array;
`acc` holds the elements already parsed, in reverse. -/
def parseArrElems : Nat → List Char → List JVal → Option (JVal × List Char)
  | 0, _, _ => none
  | fuel + 1, cs, acc =>
    match parseVal fuel cs with
    | none => none
    | some (v, rest) =>
      match skipWs rest with
      | ',' :: r2 => parseArrElems fuel (skipWs r2) (v :: acc)
      | ']' :: r2 => some (.arr (v :: acc).reverse, r2)
      | _ => none

/-- Parse the remaining members of a non-empty JSON object;
`acc` holds the members already parsed, in reverse. -/
def parseObjFields : Nat → List Char → List (String × JVal) → Option (JVal × List Char)
  | 0, _, _ => none
  | fuel + 1, cs, acc =>
    match cs with
    | '"' :: r =>
      match parseStringBody r with
      | none => none
      | some (k, r1) =>
        match skipWs r1 with
        | ':' :: r2 =>
          match parseVal fuel (skipWs r2) with
          | none => none
          | some (v, r3) =>
            match skipWs r3 with
            | ',' :: r4 => parseObjFields fuel (skipWs r4) ((⟨k⟩, v) :: acc)
            | c :: r4 => if c = rbrace then some (.obj ((⟨k⟩, v) :: acc).reverse, r4) else none
            | [] => none
        | _ => none
    | _ => none

end

/-- `json.loads(s)`: skip surrounding whitespace, parse one value,
reject trailing garbage. -/
def jloads (s : String) : Option JVal :=
  match parseVal (s.length + 1) (skipWs s.data) with
  | some (v, rest) => if (skipWs rest).isEmpty then some v else none
  | none => none

/-! ### Round trip: `json.loads` recovers what `json.dumps` wrote. -/

/-- The input does not begin with a decimal digit (so a number parse
that stops here is unambiguous). -/
def noDigitHead (l : List Char) : Prop := ∀ c ∈ l.head?, c.isDigit = false

theorem takeWhile_eq_self_of_all {p : Char → Bool} :
    ∀ l : List Char, (∀ c ∈ l, p c = true) → l.takeWhile p = l
  | [], _ => rfl
  | c :: cs, h => by
    rw [List.takeWhile_cons_of_pos (h c (by simp))]
    rw [takeWhile_eq_self_of_all cs (fun x hx => h x (by simp [hx]))]

theorem dropWhile_eq_nil_of_all {p : Char → Bool} :
    ∀ l : List Char, (∀ c ∈ l, p c = true) → l.dropWhile p = []
  | [], _ => rfl
  | c :: cs, h => by
    rw [List.dropWhile_cons_of_pos (h c (by simp))]
    exact dropWhile_eq_nil_of_all cs (fun x hx => h x (by simp [hx]))

theorem digitChar_isDigit (d : Nat) (h : d < 10) : (Nat.digitChar d).isDigit = true := by
  interval_cases d <;> decide

theorem digitChar_toNat (d : Nat) (h : d < 10) : (Nat.digitChar d).toNat - 48 = d := by
  interval_cases d <;> decide

theorem digitChar_ne_zero (d : Nat) (h1 : d < 10) (h2 : d ≠ 0) :
    Nat.digitChar d ≠ '0' := by
  interval_cases d
  · exact absurd rfl h2
  all_goals decide

theorem natDumpAux_ne_nil : ∀ (n fuel : Nat), n < fuel → natDumpAux fuel n ≠ [] := by
  intro n fuel h
  match fuel with
  | f + 1 =>
    simp only [natDumpAux]
    split <;> simp

theorem natDumpAux_digits : ∀ (n fuel : Nat), n < fuel →
    ∀ c ∈ natDumpAux fuel n, c.isDigit = true := by
  intro n
  induction n using Nat.strong_induction_on with
  | _ n ih =>
    intro fuel h c hc
    match fuel with
    | f + 1 =>
      simp only [natDumpAux] at hc
      split at hc
      · rename_i h10
        simp only [List.mem_singleton] at hc
        subst hc
        exact digitChar_isDigit n h10
      · rename_i h10
        rcases List.mem_append.mp hc with hc | hc
        · exact ih (n / 10) (Nat.div_lt_self (by omega) (by omega)) f (by omega) c hc
        · simp only [List.mem_singleton] at hc
          subst hc
          exact digitChar_isDigit _ (Nat.mod_lt _ (by omega))

theorem natDumpAux_head_ne_zero : ∀ (n fuel : Nat), n < fuel → n ≠ 0 →
    ∀ c, (natDumpAux fuel n).head? = some c → c ≠ '0' := by
  intro n
  induction n using Nat.strong_induction_on with
  | _ n ih =>
    intro fuel h hn c hc
    match fuel with
    | f + 1 =>
      simp only [natDumpAux] at hc
      split at hc
      · rename_i h10
        simp only [List.head?_cons, Option.some_inj] at hc
        subst hc
        exact digitChar_ne_zero n h10 hn
      · rename_i h10
        cases hd : natDumpAux f (n / 10) with
        | nil => exact absurd hd (natDumpAux_ne_nil (n / 10) f (by omega))
        | cons d ds =>
          rw [hd] at hc
          simp only [List.cons_append, List.head?_cons, Option.some_inj] at hc
          subst hc
          have := ih (n / 10) (Nat.div_lt_self (by omega) (by omega)) f (by omega)
            (by omega) d
          rw [hd] at this
          exact this rfl

theorem natDumpAux_foldl : ∀ (n fuel : Nat), n < fuel → ∀ acc : Nat,
    (natDumpAux fuel n).foldl (fun a c => a * 10 + (c.toNat - 48)) acc =
      acc * 10 ^ (natDumpAux fuel n).length + n := by
  intro n
  induction n using Nat.strong_induction_on with
  | _ n ih =>
    intro fuel h acc
    match fuel with
    | f + 1 =>
      simp only [natDumpAux]
      split
      · rename_i h10
        simp only [List.foldl_cons, List.foldl_nil, List.length_singleton]
        rw [digitChar_toNat n h10]
        ring
      · rename_i h10
        rw [List.foldl_append, List.length_append]
        simp only [List.foldl_cons, List.foldl_nil, List.length_singleton]
        rw [ih (n / 10) (Nat.div_lt_self (by omega) (by omega)) f (by omega) acc]
        rw [digitChar_toNat _ (Nat.mod_lt _ (by omega)), pow_succ, ← mul_assoc]
        generalize acc * 10 ^ (natDumpAux f (n / 10)).length = B
        omega

theorem natDump_ne_nil (n : Nat) : natDump n ≠ [] :=
  natDumpAux_ne_nil n (n + 1) (by omega)

theorem natDump_digits (n : Nat) : ∀ c ∈ natDump n, c.isDigit = true :=
  natDumpAux_digits n (n + 1) (by omega)

theorem natDump_head_ne_zero (n : Nat) (hn : n ≠ 0) :
    ∀ c, (natDump n).head? = some c → c ≠ '0' :=
  natDumpAux_head_ne_zero n (n + 1) (by omega) hn

theorem natDump_foldl (n : Nat) : ∀ acc : Nat,
    (natDump n).foldl (fun a c => a * 10 + (c.toNat - 48)) acc =
      acc * 10 ^ (natDump n).length + n :=
  natDumpAux_foldl n (n + 1) (by omega)

theorem parseDigits_natDump (n : Nat) (rest : List Char) (hrest : noDigitHead rest) :
    parseDigits (natDump n ++ rest) = some (n, rest) := by
  have hall := natDump_digits n
  have htake : (natDump n ++ rest).takeWhile (·.isDigit) = natDump n := by
    rw [List.takeWhile_append, if_pos (by rw [takeWhile_eq_self_of_all _ hall])]
    have : rest.takeWhile (·.isDigit) = [] := by
      cases rest with
      | nil => rfl
      | cons c cs =>
        have : c.isDigit = false := hrest c (by simp)
        simp [List.takeWhile_cons, this]
    rw [this, List.append_nil]
  have hdrop : (natDump n ++ rest).dropWhile (·.isDigit) = rest := by
    rw [List.dropWhile_append, if_pos (by rw [dropWhile_eq_nil_of_all _ hall]; rfl)]
    cases rest with
    | nil => rfl
    | cons c cs =>
      have : c.isDigit = false := hrest c (by simp)
      simp [List.dropWhile_cons, this]
  unfold parseDigits
  simp only [htake, hdrop]
  rw [if_neg (by simp [natDump_ne_nil n]), if_neg ?hz]
  · rw [natDump_foldl n 0]
    simp
  case hz =>
    rintro ⟨hlen, hhead⟩
    by_cases hn : n = 0
    · subst hn
      simp [show natDump 0 = ['0'] from rfl] at hlen
    · exact natDump_head_ne_zero n hn '0' hhead rfl

theorem hexVal_digitChar (d : Nat) (h : d < 16) : hexVal (Nat.digitChar d) = some d := by
  interval_cases d <;> decide

/-- Unfolding: a plain character (no escape, not a control character)
is consumed as itself. -/
theorem parseStringBody_cons_safe (c : Char) (cs : List Char)
    (h1 : c ≠ '"') (h2 : c ≠ '\\') (h3 : 32 ≤ c.toNat) :
    parseStringBody (c :: cs) = (parseStringBody cs).map (fun r => (c :: r.1, r.2)) := by
  rw [parseStringBody.eq_def]
  split
  · rename_i heq; exact absurd heq (by simp)
  · rename_i heq; simp only [List.cons.injEq] at heq; exact absurd heq.1 h1
  · rename_i heq; simp only [List.cons.injEq] at heq; exact absurd heq.1 h2
  · rename_i heq; simp only [List.cons.injEq] at heq; exact absurd heq.1 h2
  · rename_i heq
    simp only [List.cons.injEq] at heq
    obtain ⟨hc, hcs⟩ := heq
    subst hc; subst hcs
    rw [if_neg (by omega)]

/-- Unfolding: a backslash escape other than a unicode escape. -/
theorem parseStringBody_backslash (e : Char) (he : e ≠ 'u') (cs : List Char) :
    parseStringBody ('\\' :: e :: cs) =
      (if e = '"' then (parseStringBody cs).map (fun r => ('"' :: r.1, r.2))
       else if e = '\\' then (parseStringBody cs).map (fun r => ('\\' :: r.1, r.2))
       else if e = '/' then (parseStringBody cs).map (fun r => ('/' :: r.1, r.2))
       else if e = 'b' then (parseStringBody cs).map (fun r => (Char.ofNat 8 :: r.1, r.2))
       else if e = 'f' then (parseStringBody cs).map (fun r => (Char.ofNat 12 :: r.1, r.2))
       else if e = 'n' then (parseStringBody cs).map (fun r => ('\n' :: r.1, r.2))
       else if e = 'r' then (parseStringBody cs).map (fun r => ('\r' :: r.1, r.2))
       else if e = 't' then (parseStringBody cs).map (fun r => ('\t' :: r.1, r.2))
       else none) := by
  rw [parseStringBody.eq_def]
  split
  · rename_i heq; exact absurd heq (by simp)
  · rename_i heq; simp only [List.cons.injEq] at heq
    exact absurd heq.1 (by decide)
  · rename_i heq
    simp only [List.cons.injEq] at heq
    exact absurd heq.2.1 he
  · rename_i heq
    simp only [List.cons.injEq] at heq
    obtain ⟨-, he2, hcs⟩ := heq
    subst he2; subst hcs
    rfl
  · rename_i hno heq
    simp only [List.cons.injEq] at heq
    exact False.elim (hno e cs heq.1.symm heq.2.symm)

/-- Unfolding: a unicode escape with four following characters. -/
theorem parseStringBody_unicode (h1 h2 h3 h4 : Char) (cs : List Char) :
    parseStringBody ('\\' :: 'u' :: h1 :: h2 :: h3 :: h4 :: cs) =
      (match hexVal h1, hexVal h2, hexVal h3, hexVal h4 with
       | some a, some b, some c, some d =>
         let n := ((a * 16 + b) * 16 + c) * 16 + d
         if n < 55296 ∨ 57343 < n then
           (parseStringBody cs).map (fun r => (Char.ofNat n :: r.1, r.2))
         else none
       | _, _, _, _ => none) := by
  rw [parseStringBody.eq_def]
  split
  · rename_i heq; exact absurd heq (by simp)
  · rename_i heq; simp only [List.cons.injEq] at heq
    exact absurd heq.1 (by decide)
  · rename_i heq
    simp only [List.cons.injEq] at heq
    obtain ⟨-, -, e1, e2, e3, e4, e5⟩ := heq
    subst e1; subst e2; subst e3; subst e4; subst e5
    rfl
  · rename_i hno heq
    simp only [List.cons.injEq, true_and] at heq
    exact False.elim (hno h1 h2 h3 h4 cs heq.1.symm heq.2.symm)
  · rename_i hno1 hno2 heq
    simp only [List.cons.injEq] at heq
    exact False.elim (hno2 'u' (h1 :: h2 :: h3 :: h4 :: cs) heq.1.symm heq.2.symm)

/-- Unfolding: a unicode escape over four hex digits below the
surrogate range decodes to the corresponding character. -/
theorem parseStringBody_unicode_ok (a b c d : Nat)
    (ha : a < 16) (hb : b < 16) (hc : c < 16) (hd : d < 16)
    (hval : ((a * 16 + b) * 16 + c) * 16 + d < 55296 ∨
      57343 < ((a * 16 + b) * 16 + c) * 16 + d) (cs : List Char) :
    parseStringBody ('\\' :: 'u' :: Nat.digitChar a :: Nat.digitChar b ::
        Nat.digitChar c :: Nat.digitChar d :: cs) =
      (parseStringBody cs).map
        (fun r => (Char.ofNat (((a * 16 + b) * 16 + c) * 16 + d) :: r.1, r.2)) := by
  rw [parseStringBody_unicode, hexVal_digitChar a ha, hexVal_digitChar b hb,
    hexVal_digitChar c hc, hexVal_digitChar d hd]
  dsimp only
  rw [if_pos hval]

/-- The JSON string escaping of `json.dumps(_, ensure_ascii=False)` is
inverted exactly by the string-literal parser. -/
theorem parseStringBody_escaped : ∀ (l rest : List Char),
    parseStringBody ((l.map escapeChar).flatten ++ '"' :: rest) = some (l, rest)
  | [], rest => by simp [parseStringBody]
  | c :: l, rest => by
    have ih := parseStringBody_escaped l rest
    simp only [List.map_cons, List.flatten_cons, List.append_assoc]
    show parseStringBody (escapeChar c ++ ((l.map escapeChar).flatten ++ '"' :: rest)) =
      some (c :: l, rest)
    by_cases hq : c = '"'
    · subst hq
      rw [show escapeChar '"' = ['\\', '"'] from rfl]
      simp only [List.cons_append, List.nil_append]
      rw [parseStringBody_backslash _ (by decide), if_pos rfl, ih]
      rfl
    · by_cases hb : c = '\\'
      · subst hb
        rw [show escapeChar '\\' = ['\\', '\\'] from rfl]
        simp only [List.cons_append, List.nil_append]
        rw [parseStringBody_backslash _ (by decide), if_neg (by decide), if_pos rfl, ih]
        rfl
      · by_cases hn : c = '\n'
        · subst hn
          rw [show escapeChar '\n' = ['\\', 'n'] from rfl]
          simp only [List.cons_append, List.nil_append]
          rw [parseStringBody_backslash _ (by decide), if_neg (by decide),
            if_neg (by decide), if_neg (by decide), if_neg (by decide),
            if_neg (by decide), if_pos rfl, ih]
          rfl
        · by_cases ht : c = '\t'
          · subst ht
            rw [show escapeChar '\t' = ['\\', 't'] from rfl]
            simp only [List.cons_append, List.nil_append]
            rw [parseStringBody_backslash _ (by decide), if_neg (by decide),
              if_neg (by decide), if_neg (by decide), if_neg (by decide),
              if_neg (by decide), if_neg (by decide), if_neg (by decide),
              if_pos rfl, ih]
            rfl
          · by_cases hr : c = '\r'
            · subst hr
              rw [show escapeChar '\r' = ['\\', 'r'] from rfl]
              simp only [List.cons_append, List.nil_append]
              rw [parseStringBody_backslash _ (by decide), if_neg (by decide),
                if_neg (by decide), if_neg (by decide), if_neg (by decide),
                if_neg (by decide), if_neg (by decide), if_pos rfl, ih]
              rfl
            · by_cases h8 : c.toNat = 8
              · have he : escapeChar c = ['\\', 'b'] := by
                  unfold escapeChar
                  rw [if_neg hq, if_neg hb, if_neg hn, if_neg ht, if_neg hr, if_pos h8]
                rw [he]
                simp only [List.cons_append, List.nil_append]
                rw [parseStringBody_backslash _ (by decide), if_neg (by decide),
                  if_neg (by decide), if_neg (by decide), if_pos rfl, ih]
                rw [show Char.ofNat 8 = c from by rw [← h8]; exact Char.ofNat_toNat c]
                rfl
              · by_cases h12 : c.toNat = 12
                · have he : escapeChar c = ['\\', 'f'] := by
                    unfold escapeChar
                    rw [if_neg hq, if_neg hb, if_neg hn, if_neg ht, if_neg hr,
                      if_neg h8, if_pos h12]
                  rw [he]
                  simp only [List.cons_append, List.nil_append]
                  rw [parseStringBody_backslash _ (by decide), if_neg (by decide),
                    if_neg (by decide), if_neg (by decide), if_neg (by decide),
                    if_pos rfl, ih]
                  rw [show Char.ofNat 12 = c from by rw [← h12]; exact Char.ofNat_toNat c]
                  rfl
                · by_cases hc32 : c.toNat < 32
                  · have he : escapeChar c =
                        ['\\', 'u', Nat.digitChar 0, Nat.digitChar 0,
                         Nat.digitChar (c.toNat / 16), Nat.digitChar (c.toNat % 16)] := by
                      unfold escapeChar
                      rw [if_neg hq, if_neg hb, if_neg hn, if_neg ht, if_neg hr,
                        if_neg h8, if_neg h12, if_pos hc32]
                      rfl
                    rw [he]
                    simp only [List.cons_append, List.nil_append]
                    rw [parseStringBody_unicode_ok 0 0 (c.toNat / 16) (c.toNat % 16)
                      (by omega) (by omega) (by omega) (Nat.mod_lt _ (by omega))
                      (Or.inl (by omega)) _]
                    rw [show ((0 * 16 + 0) * 16 + c.toNat / 16) * 16 + c.toNat % 16 =
                      c.toNat from by omega]
                    rw [Char.ofNat_toNat, ih]
                    rfl
                  · have he : escapeChar c = [c] := by
                      unfold escapeChar
                      rw [if_neg hq, if_neg hb, if_neg hn, if_neg ht, if_neg hr,
                        if_neg h8, if_neg h12, if_neg hc32]
                    rw [he]
                    simp only [List.cons_append, List.nil_append]
                    rw [parseStringBody_cons_safe c _ hq hb (by omega), ih]
                    rfl

mutual

/-- Number of JSON values inside `v` (used only to bound parser fuel). -/
def jsize : JVal → Nat
  | .null => 1
  | .bool _ => 1
  | .num _ => 1
  | .str _ => 1
  | .arr xs => 1 + jsizeList xs
  | .obj fs => 1 + jsizeFields fs

/-- Total `jsize` of a list of values. -/
def jsizeList : List JVal → Nat
  | [] => 0
  | x :: xs => jsize x + jsizeList xs

/-- Total `jsize` of the values of an object. -/
def jsizeFields : List (String × JVal) → Nat
  | [] => 0
  | (_, v) :: fs => jsize v + jsizeFields fs

end

theorem jsize_pos (v : JVal) : 1 ≤ jsize v := by
  cases v <;> simp [jsize]

mutual

theorem two_jsize_le : ∀ v : JVal, 2 * jsize v ≤ (JVal.dumpChars v).length + 1
  | .null => by simp [jsize, JVal.dumpChars]
  | .bool b => by cases b <;> simp [jsize, JVal.dumpChars]
  | .num n => by
    have h : intDump n ≠ [] := by
      unfold intDump
      split
      · simp
      · exact natDump_ne_nil _
    have : 1 ≤ (intDump n).length := by
      cases he : intDump n with
      | nil => exact absurd he h
      | cons a l => simp
    simp only [jsize, JVal.dumpChars]
    omega
  | .str s => by
    simp only [jsize, JVal.dumpChars, encStr, List.length_cons, List.length_append]
    omega
  | .arr xs => by
    have := two_jsizeList_le xs
    simp only [jsize, JVal.dumpChars, List.length_cons, List.length_append]
    omega
  | .obj fs => by
    have := two_jsizeFields_le fs
    simp only [jsize, JVal.dumpChars, List.length_cons, List.length_append]
    omega

theorem two_jsizeList_le : ∀ xs : List JVal, 2 * jsizeList xs ≤ (JVal.dumpList xs).length + 1
  | [] => by simp [jsizeList, JVal.dumpList]
  | [x] => by
    have := two_jsize_le x
    simp only [jsizeList, JVal.dumpList]
    omega
  | x :: y :: ys => by
    have h1 := two_jsize_le x
    have h2 := two_jsizeList_le (y :: ys)
    have hsz : jsizeList (x :: y :: ys) = jsize x + jsizeList (y :: ys) := rfl
    have hdl : JVal.dumpList (x :: y :: ys) =
        JVal.dumpChars x ++ ',' :: ' ' :: JVal.dumpList (y :: ys) := rfl
    rw [hsz, hdl]
    simp only [List.length_append, List.length_cons]
    omega

theorem two_jsizeFields_le : ∀ fs : List (String × JVal),
    2 * jsizeFields fs ≤ (JVal.dumpFields fs).length + 1
  | [] => by simp [jsizeFields, JVal.dumpFields]
  | [(k, v)] => by
    have := two_jsize_le v
    simp only [jsizeFields, JVal.dumpFields, List.length_append, List.length_cons]
    omega
  | (k, v) :: (k2, v2) :: fs => by
    have h1 := two_jsize_le v
    have h2 := two_jsizeFields_le ((k2, v2) :: fs)
    have hsz : jsizeFields ((k, v) :: (k2, v2) :: fs) =
        jsize v + jsizeFields ((k2, v2) :: fs) := rfl
    have hdl : JVal.dumpFields ((k, v) :: (k2, v2) :: fs) =
        encStr k ++ ':' :: ' ' :: JVal.dumpChars v ++
          ',' :: ' ' :: JVal.dumpFields ((k2, v2) :: fs) := rfl
    rw [hsz, hdl]
    simp only [List.length_append, List.length_cons]
    omega

end

theorem natDump_head_cases (n : Nat) :
    ∃ c cs, natDump n = c :: cs ∧ c.isDigit = true := by
  cases he : natDump n with
  | nil => exact absurd he (natDump_ne_nil n)
  | cons c cs =>
    refine ⟨c, cs, rfl, ?_⟩
    have := natDump_digits n c (by rw [he]; simp)
    exact this

/-- Every serialized value starts with one of the known lead characters. -/
theorem dumpChars_head_cases (v : JVal) :
    ∃ c cs, JVal.dumpChars v = c :: cs ∧
      (c = 'n' ∨ c = 't' ∨ c = 'f' ∨ c = '"' ∨ c = '[' ∨ c = lbrace ∨ c = '-' ∨
        c.isDigit = true) := by
  cases v with
  | null => exact ⟨'n', _, rfl, by simp⟩
  | bool b =>
    cases b
    · exact ⟨'f', _, rfl, by simp⟩
    · exact ⟨'t', _, rfl, by simp⟩
  | num n =>
    simp only [JVal.dumpChars]
    unfold intDump
    split
    · exact ⟨'-', _, rfl, by simp⟩
    · obtain ⟨c, cs, hd, hdig⟩ := natDump_head_cases n.toNat
      exact ⟨c, cs, hd, by simp [hdig]⟩
  | str s => exact ⟨'"', _, rfl, by simp⟩
  | arr xs => exact ⟨'[', _, rfl, by simp⟩
  | obj fs => exact ⟨lbrace, _, rfl, by simp⟩

/-- A digit character is none of the JSON structural characters and is
not whitespace. -/
theorem isDigit_not_special (c : Char) (h : c.isDigit = true) :
    isJsonWs c = false ∧ c ≠ ']' ∧ c ≠ lbrace ∧ c ≠ rbrace ∧ c ≠ ',' := by
  refine ⟨?_, ?_, ?_, ?_, ?_⟩
  · by_contra hw
    simp only [Bool.not_eq_false, isJsonWs, Bool.or_eq_true, decide_eq_true_eq] at hw
    rcases hw with ((h1 | h1) | h1) | h1 <;> subst h1 <;> simp at h
  · intro h1; subst h1; simp at h
  · intro h1; rw [h1] at h; exact absurd h (by decide)
  · intro h1; rw [h1] at h; exact absurd h (by decide)
  · intro h1; subst h1; simp at h

/-- The lead character of a serialized value is not whitespace, does not
close an array, and does not close an object. -/
theorem dump_lead_not_special (c : Char)
    (h : c = 'n' ∨ c = 't' ∨ c = 'f' ∨ c = '"' ∨ c = '[' ∨ c = lbrace ∨ c = '-' ∨
      c.isDigit = true) :
    isJsonWs c = false ∧ c ≠ ']' ∧ c ≠ rbrace := by
  rcases h with h | h | h | h | h | h | h | h
  all_goals try (subst h; refine ⟨by decide, by decide, by decide⟩)
  obtain ⟨h1, h2, -, h3, -⟩ := isDigit_not_special c h
  exact ⟨h1, h2, h3⟩

theorem skipWs_cons_of_not (c : Char) (l : List Char) (h : isJsonWs c = false) :
    skipWs (c :: l) = c :: l := by
  simp [skipWs, h]

/-- Unfolding: a digit at the head of the input starts a number parse. -/
theorem parseVal_digit_head (fuel : Nat) (c : Char) (r : List Char)
    (h : c.isDigit = true) :
    parseVal (fuel + 1) (c :: r) =
      (parseDigits (c :: r)).map (fun p => (JVal.num (p.1 : Int), p.2)) := by
  rw [parseVal.eq_def]
  split
  · rename_i heq; exact absurd heq (by omega)
  · rename_i f heq
    have hf : f = fuel := by omega
    subst hf
    split
    · rename_i heq2; simp only [List.cons.injEq] at heq2
      rw [heq2.1] at h; exact absurd h (by decide)
    · rename_i heq2; simp only [List.cons.injEq] at heq2
      rw [heq2.1] at h; exact absurd h (by decide)
    · rename_i heq2; simp only [List.cons.injEq] at heq2
      rw [heq2.1] at h; exact absurd h (by decide)
    · rename_i heq2; simp only [List.cons.injEq] at heq2
      rw [heq2.1] at h; exact absurd h (by decide)
    · rename_i heq2; simp only [List.cons.injEq] at heq2
      rw [heq2.1] at h; exact absurd h (by decide)
    · rename_i heq2; simp only [List.cons.injEq] at heq2
      rw [heq2.1] at h; exact absurd h (by decide)
    · rename_i heq2; simp only [List.cons.injEq] at heq2
      obtain ⟨hc, hr⟩ := heq2
      subst hc; subst hr
      rw [if_neg (isDigit_not_special _ h).2.2.1]
    · rename_i heq2; exact absurd heq2 (by simp)

/-- Unfolding: an opening brace at the head of the input starts an
object parse. -/
theorem parseVal_lbrace (fuel : Nat) (r : List Char) :
    parseVal (fuel + 1) (lbrace :: r) =
      (match skipWs r with
       | c2 :: r2 =>
         if c2 = rbrace then some (.obj [], r2) else parseObjFields fuel (c2 :: r2) []
       | [] => none) := by
  rw [parseVal.eq_def]
  split
  · rename_i heq; exact absurd heq (by omega)
  · rename_i f heq
    have hf : f = fuel := by omega
    subst hf
    split
    · rename_i heq2; simp only [List.cons.injEq] at heq2
      exact absurd heq2.1 (by decide)
    · rename_i heq2; simp only [List.cons.injEq] at heq2
      exact absurd heq2.1 (by decide)
    · rename_i heq2; simp only [List.cons.injEq] at heq2
      exact absurd heq2.1 (by decide)
    · rename_i heq2; simp only [List.cons.injEq] at heq2
      exact absurd heq2.1 (by decide)
    · rename_i heq2; simp only [List.cons.injEq] at heq2
      exact absurd heq2.1 (by decide)
    · rename_i heq2; simp only [List.cons.injEq] at heq2
      exact absurd heq2.1 (by decide)
    · rename_i heq2; simp only [List.cons.injEq] at heq2
      obtain ⟨hc, hr⟩ := heq2
      rw [← hc, ← hr]
      rw [if_pos rfl]
    · rename_i heq2; exact absurd heq2 (by simp)

theorem noDigitHead_cons (c : Char) (l : List Char) (h : c.isDigit = false) :
    noDigitHead (c :: l) := by
  intro d hd
  simp only [List.head?_cons, Option.mem_def, Option.some_inj] at hd
  subst hd
  exact h

theorem noDigitHead_nil : noDigitHead [] := by
  intro d hd
  simp at hd

/-- A non-empty serialized array element list begins with its first
element's serialization. -/
theorem dumpList_head (y : JVal) (ys : List JVal) :
    ∃ t, JVal.dumpList (y :: ys) = JVal.dumpChars y ++ t := by
  cases ys with
  | nil => exact ⟨[], (List.append_nil _).symm⟩
  | cons z zs => exact ⟨',' :: ' ' :: JVal.dumpList (z :: zs), rfl⟩

/-- A non-empty serialized member list begins with a quote. -/
theorem dumpFields_cons_shape (k : String) (v : JVal) (fs : List (String × JVal)) :
    ∃ u, JVal.dumpFields ((k, v) :: fs) = '"' :: u := by
  cases fs with
  | nil => exact ⟨_, rfl⟩
  | cons p fs2 => exact ⟨_, rfl⟩

mutual

/-- The parser recovers exactly the value the serializer wrote, given
enough fuel and a following input that cannot extend a number literal. -/
theorem parseVal_dumpChars : ∀ (v : JVal) (fuel : Nat), 2 * jsize v ≤ fuel →
    ∀ rest, noDigitHead rest →
      parseVal fuel (JVal.dumpChars v ++ rest) = some (v, rest)
  | .null, fuel, hf, rest, hrest => by
    obtain ⟨f, rfl⟩ : ∃ f, fuel = f + 1 :=
      ⟨fuel - 1, by have := jsize_pos .null; omega⟩
    simp only [JVal.dumpChars, List.cons_append, List.nil_append]
    rfl
  | .bool true, fuel, hf, rest, hrest => by
    obtain ⟨f, rfl⟩ : ∃ f, fuel = f + 1 :=
      ⟨fuel - 1, by have := jsize_pos (.bool true); omega⟩
    simp only [JVal.dumpChars, List.cons_append, List.nil_append]
    rfl
  | .bool false, fuel, hf, rest, hrest => by
    obtain ⟨f, rfl⟩ : ∃ f, fuel = f + 1 :=
      ⟨fuel - 1, by have := jsize_pos (.bool false); omega⟩
    simp only [JVal.dumpChars, List.cons_append, List.nil_append]
    rfl
  | .num n, fuel, hf, rest, hrest => by
    obtain ⟨f, rfl⟩ : ∃ f, fuel = f + 1 :=
      ⟨fuel - 1, by have := jsize_pos (.num n); omega⟩
    simp only [JVal.dumpChars]
    unfold intDump
    by_cases hneg : n < 0
    · rw [if_pos hneg]
      simp only [List.cons_append]
      simp only [parseVal]
      rw [parseDigits_natDump _ _ hrest]
      simp only [Option.map]
      rw [show -((n.natAbs : Nat) : Int) = n from by omega]
    · rw [if_neg hneg]
      obtain ⟨c, cs, hd, hdig⟩ := natDump_head_cases n.toNat
      rw [hd, List.cons_append, parseVal_digit_head f c _ hdig,
        ← List.cons_append, ← hd, parseDigits_natDump _ _ hrest]
      simp only [Option.map]
      rw [show ((n.toNat : Nat) : Int) = n from by omega]
  | .str s, fuel, hf, rest, hrest => by
    obtain ⟨f, rfl⟩ : ∃ f, fuel = f + 1 :=
      ⟨fuel - 1, by have := jsize_pos (.str s); omega⟩
    simp only [JVal.dumpChars, encStr, List.cons_append, List.append_assoc,
      List.singleton_append, List.nil_append]
    simp only [parseVal]
    rw [parseStringBody_escaped s.data rest]
    rfl
  | .arr [], fuel, hf, rest, hrest => by
    obtain ⟨f, rfl⟩ : ∃ f, fuel = f + 1 :=
      ⟨fuel - 1, by have := jsize_pos (.arr []); omega⟩
    simp only [JVal.dumpChars, JVal.dumpList, List.nil_append, List.cons_append]
    simp only [parseVal]
    rw [skipWs_cons_of_not _ _ (by decide)]
    rfl
  | .arr (x :: xs), fuel, hf, rest, hrest => by
    obtain ⟨f, rfl⟩ : ∃ f, fuel = f + 1 :=
      ⟨fuel - 1, by have := jsize_pos (.arr (x :: xs)); omega⟩
    obtain ⟨c, cs, hd, hset⟩ := dumpChars_head_cases x
    obtain ⟨hws, hne_br, -⟩ := dump_lead_not_special c hset
    obtain ⟨t, hdl⟩ := dumpList_head x xs
    simp only [JVal.dumpChars, List.cons_append, List.append_assoc,
      List.singleton_append, List.nil_append]
    simp only [parseVal]
    rw [hdl, hd]
    simp only [List.cons_append, List.append_assoc]
    rw [skipWs_cons_of_not _ _ hws]
    split
    · rename_i heq
      simp only [List.cons.injEq] at heq
      exact absurd heq.1 hne_br
    · rw [← List.cons_append, ← hd, ← List.append_assoc, ← hdl]
      have hq := parseArrElems_dumpList x xs f
        (by have hj : jsize (JVal.arr (x :: xs)) = 1 + jsizeList (x :: xs) := rfl
            omega)
        [] rest
      simpa using hq
  | .obj [], fuel, hf, rest, hrest => by
    obtain ⟨f, rfl⟩ : ∃ f, fuel = f + 1 :=
      ⟨fuel - 1, by have := jsize_pos (.obj []); omega⟩
    simp only [JVal.dumpChars, JVal.dumpFields, List.nil_append, List.cons_append]
    rw [parseVal_lbrace, skipWs_cons_of_not _ _ (by decide)]
    simp
  | .obj ((k, v) :: fs), fuel, hf, rest, hrest => by
    obtain ⟨f, rfl⟩ : ∃ f, fuel = f + 1 :=
      ⟨fuel - 1, by have := jsize_pos (.obj ((k, v) :: fs)); omega⟩
    obtain ⟨u, hu⟩ := dumpFields_cons_shape k v fs
    simp only [JVal.dumpChars, List.cons_append, List.append_assoc,
      List.singleton_append, List.nil_append]
    rw [parseVal_lbrace, hu]
    simp only [List.cons_append]
    rw [skipWs_cons_of_not _ _ (by decide)]
    dsimp only
    rw [if_neg (by decide)]
    rw [← List.cons_append, ← hu]
    have hr := parseObjFields_dumpFields k v fs f
      (by have hj : jsize (JVal.obj ((k, v) :: fs)) = 1 + jsizeFields ((k, v) :: fs) := rfl
          omega)
      [] rest
    simpa using hr
termination_by v _ _ _ _ => sizeOf v

/-- The array-elements parser consumes a non-empty serialized element
list up to the closing bracket. -/
theorem parseArrElems_dumpList : ∀ (x : JVal) (xs : List JVal) (fuel : Nat),
    2 * jsizeList (x :: xs) + 1 ≤ fuel → ∀ acc rest,
      parseArrElems fuel (JVal.dumpList (x :: xs) ++ ']' :: rest) acc =
        some (.arr (acc.reverse ++ x :: xs), rest)
  | x, [], fuel, hf, acc, rest => by
    obtain ⟨f, rfl⟩ : ∃ f, fuel = f + 1 := ⟨fuel - 1, by omega⟩
    have hjl : jsizeList [x] = jsize x := by simp [jsizeList]
    simp only [JVal.dumpList]
    simp only [parseArrElems]
    rw [parseVal_dumpChars x f (by omega) _ (noDigitHead_cons _ _ (by decide))]
    dsimp only
    rw [skipWs_cons_of_not _ _ (by decide)]
    simp
  | x, y :: ys, fuel, hf, acc, rest => by
    obtain ⟨f, rfl⟩ : ∃ f, fuel = f + 1 := ⟨fuel - 1, by omega⟩
    have hjl : jsizeList (x :: y :: ys) = jsize x + jsizeList (y :: ys) := rfl
    have hjy : jsizeList (y :: ys) = jsize y + jsizeList ys := rfl
    have hpx := jsize_pos x
    have hpy := jsize_pos y
    have hdx : JVal.dumpList (x :: y :: ys) =
        JVal.dumpChars x ++ ',' :: ' ' :: JVal.dumpList (y :: ys) := rfl
    rw [hdx]
    simp only [List.append_assoc, List.cons_append]
    simp only [parseArrElems]
    rw [parseVal_dumpChars x f (by omega) _ (noDigitHead_cons _ _ (by decide))]
    dsimp only
    rw [skipWs_cons_of_not _ _ (by decide)]
    have hsw : skipWs (' ' :: (JVal.dumpList (y :: ys) ++ ']' :: rest)) =
        JVal.dumpList (y :: ys) ++ ']' :: rest := by
      obtain ⟨c, cs, hd, hset⟩ := dumpChars_head_cases y
      obtain ⟨hws, -, -⟩ := dump_lead_not_special c hset
      obtain ⟨t, hdl⟩ := dumpList_head y ys
      rw [show skipWs (' ' :: (JVal.dumpList (y :: ys) ++ ']' :: rest)) =
        skipWs (JVal.dumpList (y :: ys) ++ ']' :: rest) from by simp [skipWs, isJsonWs]]
      rw [hdl, hd]
      simp only [List.cons_append, List.append_assoc]
      rw [skipWs_cons_of_not _ _ hws]
    show parseArrElems f (skipWs (' ' :: (JVal.dumpList (y :: ys) ++ ']' :: rest)))
        (x :: acc) = some (JVal.arr (acc.reverse ++ x :: y :: ys), rest)
    rw [hsw]
    rw [parseArrElems_dumpList y ys f (by omega) (x :: acc) rest]
    simp
termination_by x xs _ _ _ _ => 1 + sizeOf x + sizeOf xs

/-- The object-members parser consumes a non-empty serialized member
list up to the closing brace. -/
theorem parseObjFields_dumpFields : ∀ (k : String) (v : JVal)
    (fs : List (String × JVal)) (fuel : Nat),
    2 * jsizeFields ((k, v) :: fs) + 1 ≤ fuel → ∀ acc rest,
      parseObjFields fuel (JVal.dumpFields ((k, v) :: fs) ++ rbrace :: rest) acc =
        some (.obj (acc.reverse ++ (k, v) :: fs), rest)
  | k, v, [], fuel, hf, acc, rest => by
    obtain ⟨f, rfl⟩ : ∃ f, fuel = f + 1 := ⟨fuel - 1, by omega⟩
    have hjf : jsizeFields [(k, v)] = jsize v := by simp [jsizeFields]
    have hdf : JVal.dumpFields [(k, v)] = encStr k ++ ':' :: ' ' :: JVal.dumpChars v := rfl
    rw [hdf]
    simp only [encStr, List.cons_append, List.append_assoc, List.singleton_append,
      List.nil_append]
    simp only [parseObjFields]
    rw [parseStringBody_escaped k.data]
    dsimp only
    rw [skipWs_cons_of_not _ _ (by decide)]
    have hsw : skipWs (' ' :: (JVal.dumpChars v ++ rbrace :: rest)) =
        JVal.dumpChars v ++ rbrace :: rest := by
      obtain ⟨c, cs, hd, hset⟩ := dumpChars_head_cases v
      obtain ⟨hws, -, -⟩ := dump_lead_not_special c hset
      rw [show skipWs (' ' :: (JVal.dumpChars v ++ rbrace :: rest)) =
        skipWs (JVal.dumpChars v ++ rbrace :: rest) from by simp [skipWs, isJsonWs]]
      rw [hd]
      simp only [List.cons_append]
      rw [skipWs_cons_of_not _ _ hws]
    show (match parseVal f (skipWs (' ' :: (JVal.dumpChars v ++ rbrace :: rest))) with
          | none => none
          | some (v2, r3) =>
            match skipWs r3 with
            | ',' :: r4 => parseObjFields f (skipWs r4) ((⟨k.data⟩, v2) :: acc)
            | c :: r4 =>
              if c = rbrace then some (JVal.obj ((⟨k.data⟩, v2) :: acc).reverse, r4)
              else none
            | [] => none) =
        some (JVal.obj (acc.reverse ++ [(k, v)]), rest)
    rw [hsw]
    rw [parseVal_dumpChars v f (by omega) _ (noDigitHead_cons _ _ (by decide))]
    dsimp only
    rw [skipWs_cons_of_not _ _ (by decide)]
    split
    · rename_i heq
      simp only [List.cons.injEq] at heq
      exact absurd heq.1.symm (by decide)
    · rename_i heq
      simp only [List.cons.injEq] at heq
      obtain ⟨hc, hr2⟩ := heq
      rw [← hc, ← hr2, if_pos rfl]
      simp
    · rename_i heq
      exact absurd heq (by simp)
  | k, v, (k2, v2) :: fs, fuel, hf, acc, rest => by
    obtain ⟨f, rfl⟩ : ∃ f, fuel = f + 1 := ⟨fuel - 1, by omega⟩
    have hjf : jsizeFields ((k, v) :: (k2, v2) :: fs) =
        jsize v + jsizeFields ((k2, v2) :: fs) := rfl
    have hjf2 : jsizeFields ((k2, v2) :: fs) = jsize v2 + jsizeFields fs := rfl
    have hpv := jsize_pos v
    have hpv2 := jsize_pos v2
    have hdf : JVal.dumpFields ((k, v) :: (k2, v2) :: fs) =
        encStr k ++ ':' :: ' ' :: JVal.dumpChars v ++
          ',' :: ' ' :: JVal.dumpFields ((k2, v2) :: fs) := rfl
    rw [hdf]
    simp only [encStr, List.cons_append, List.append_assoc, List.singleton_append,
      List.nil_append]
    simp only [parseObjFields]
    rw [parseStringBody_escaped k.data]
    dsimp only
    rw [skipWs_cons_of_not _ _ (by decide)]
    have hsw : skipWs (' ' :: (JVal.dumpChars v ++
        ',' :: ' ' :: (JVal.dumpFields ((k2, v2) :: fs) ++ rbrace :: rest))) =
        JVal.dumpChars v ++
          ',' :: ' ' :: (JVal.dumpFields ((k2, v2) :: fs) ++ rbrace :: rest) := by
      obtain ⟨c, cs, hd, hset⟩ := dumpChars_head_cases v
      obtain ⟨hws, -, -⟩ := dump_lead_not_special c hset
      rw [show skipWs (' ' :: (JVal.dumpChars v ++
          ',' :: ' ' :: (JVal.dumpFields ((k2, v2) :: fs) ++ rbrace :: rest))) =
        skipWs (JVal.dumpChars v ++
          ',' :: ' ' :: (JVal.dumpFields ((k2, v2) :: fs) ++ rbrace :: rest)) from by
            simp [skipWs, isJsonWs]]
      rw [hd]
      simp only [List.cons_append]
      rw [skipWs_cons_of_not _ _ hws]
    show (match parseVal f (skipWs (' ' :: (JVal.dumpChars v ++
            ',' :: ' ' :: (JVal.dumpFields ((k2, v2) :: fs) ++ rbrace :: rest)))) with
          | none => none
          | some (w, r3) =>
            match skipWs r3 with
            | ',' :: r4 => parseObjFields f (skipWs r4) ((⟨k.data⟩, w) :: acc)
            | c :: r4 =>
              if c = rbrace then some (JVal.obj ((⟨k.data⟩, w) :: acc).reverse, r4)
              else none
            | [] => none) =
        some (JVal.obj (acc.reverse ++ (k, v) :: (k2, v2) :: fs), rest)
    rw [hsw]
    rw [parseVal_dumpChars v f (by omega) _ (noDigitHead_cons _ _ (by decide))]
    dsimp only
    rw [skipWs_cons_of_not _ _ (by decide)]
    have hsw2 : skipWs (' ' :: (JVal.dumpFields ((k2, v2) :: fs) ++ rbrace :: rest)) =
        JVal.dumpFields ((k2, v2) :: fs) ++ rbrace :: rest := by
      obtain ⟨u, hu⟩ := dumpFields_cons_shape k2 v2 fs
      rw [show skipWs (' ' :: (JVal.dumpFields ((k2, v2) :: fs) ++ rbrace :: rest)) =
        skipWs (JVal.dumpFields ((k2, v2) :: fs) ++ rbrace :: rest) from by
          simp [skipWs, isJsonWs]]
      rw [hu]
      simp only [List.cons_append]
      rw [skipWs_cons_of_not _ _ (by decide)]
    show parseObjFields f
        (skipWs (' ' :: (JVal.dumpFields ((k2, v2) :: fs) ++ rbrace :: rest)))
        ((⟨k.data⟩, v) :: acc) =
      some (JVal.obj (acc.reverse ++ (k, v) :: (k2, v2) :: fs), rest)
    rw [hsw2]
    rw [parseObjFields_dumpFields k2 v2 fs f (by omega) ((⟨k.data⟩, v) :: acc) rest]
    simp
termination_by k v fs _ _ _ _ => 1 + sizeOf v + sizeOf fs

end

/-- `json.loads` inverts `json.dumps(_, ensure_ascii=False)`. -/
theorem jloads_jdumps (v : JVal) : jloads (jdumps v) = some v := by
  unfold jloads jdumps
  obtain ⟨c, cs, hd, hset⟩ := dumpChars_head_cases v
  obtain ⟨hws, -, -⟩ := dump_lead_not_special c hset
  have hskip : skipWs (String.data ⟨v.dumpChars⟩) = v.dumpChars := by
    show skipWs v.dumpChars = v.dumpChars
    rw [hd, skipWs_cons_of_not _ _ hws]
  rw [hskip]
  have hlen : 2 * jsize v ≤ (String.mk v.dumpChars).length + 1 := by
    have h1 := two_jsize_le v
    have h2 : (String.mk v.dumpChars).length = v.dumpChars.length := rfl
    omega
  have hp := parseVal_dumpChars v ((String.mk v.dumpChars).length + 1) hlen []
    noDigitHead_nil
  rw [List.append_nil] at hp
  rw [hp]
  rfl

/-! ### The session store: `SessionManager` (manager.py lines 88-233).

A session file is a list of raw text lines (without the trailing
newline, which `json.dumps` never emits and `strip()` removes).
Python's `line.strip()` is modelled by `pyStrip` over characters, and
`"\\u" in line` by `hasBackslashU`. -/

/-- Python `str.strip()` default whitespace. -/
def isPyWs (c : Char) : Bool :=
  c = ' ' || c = '\t' || c = '\n' || c = '\r' ||
    c = Char.ofNat 11 || c = Char.ofNat 12

/-- Strip leading and trailing whitespace from a character list. -/
def stripChars (l : List Char) : List Char :=
  ((l.dropWhile isPyWs).reverse.dropWhile isPyWs).reverse

/-- Python `line.strip()`. -/
def pyStrip (s : String) : String := ⟨stripChars s.data⟩

/-- Whether a character list contains a backslash immediately followed
by the letter `u`. -/
def hasBU : List Char → Bool
  | '\\' :: 'u' :: _ => true
  | _ :: rest => hasBU rest
  | [] => false

/-- Python `"\\u" in line`. -/
def hasBackslashU (s : String) : Bool := hasBU s.data

/-- The loop state of `SessionManager._load` (lines 144-150). -/
structure LoadAcc where
  messages : List JDict := []
  metadata : JVal := .obj []
  created_at : Option String := none
  updated_at : Option String := none
  last_consolidated : JVal := .num 0
  needsNorm : Bool := false
  deriving Repr, DecidableEq

/-- `datetime.fromisoformat` applied to a parsed JSON value: succeeds on
strings, raises (`none`) on any other type.  (The model treats every
string as a valid ISO timestamp; `datetime` values are their ISO
strings.) -/
def fromiso : JVal → Option String
  | .str s => some s
  | _ => none

/-- The per-line body of the `_load` read loop (lines 152-168): record
the escaped-text flag, skip blank lines, parse JSON (`none` = raised
exception), dispatch on the `_type` marker.  A parsed non-object raises
`AttributeError` at `data.get`, hence `none`. -/
def processLines (now : String) : List String → LoadAcc → Option LoadAcc
  | [], acc => some acc
  | line :: rest, acc =>
    let acc := { acc with needsNorm := acc.needsNorm || hasBackslashU line }
    let l := pyStrip line
    if l = "" then processLines now rest acc
    else
      match jloads l with
      | none => none
      | some (.obj fields) =>
        if dget fields "_type" = some (.str "metadata") then
          match
            (if truthyOpt (dget fields "created_at") then
               match dget fields "created_at" with
               | some v => (fromiso v).map some
               | none => none
             else some none),
            (if truthyOpt (dget fields "updated_at") then
               match dget fields "updated_at" with
               | some v => (fromiso v).map some
               | none => none
             else some none) with
          | some ca, some ua =>
            processLines now rest
              { acc with
                metadata := (dget fields "metadata").getD (.obj []),
                created_at := ca,
                updated_at := ua,
                last_consolidated := (dget fields "last_consolidated").getD (.num 0) }
          | _, _ => none
        else processLines now rest { acc with messages := acc.messages ++ [fields] }
      | some _ => none

/-- `SessionManager._load`, lines 144-177: run the read loop and build
the `Session` (`none` models the caught exception path). -/
def loadFromLines (key now : String) (lines : List String) : Option (Session × Bool) :=
  (processLines now lines {}).map (fun acc =>
    ({ key := key,
       messages := acc.messages,
       created_at := acc.created_at.getD now,
       updated_at := acc.updated_at.getD now,
       metadata := acc.metadata,
       last_consolidated := acc.last_consolidated }, acc.needsNorm))

/-- The metadata line `SessionManager.save` writes (lines 190-196). -/
def metaLine (s : Session) : JVal :=
  .obj [("_type", .str "metadata"), ("created_at", .str s.created_at),
        ("updated_at", .str s.updated_at), ("metadata", s.metadata),
        ("last_consolidated", s.last_consolidated)]

/-- The file content `SessionManager.save` writes (lines 185-199): the
metadata line followed by one `json.dumps(msg, ensure_ascii=False)` line
per message. -/
def saveLines (s : Session) : List String :=
  jdumps (metaLine s) :: s.messages.map (fun m => jdumps (.obj m))

/-- The two on-disk locations `_load` consults for one key: the
per-workspace sessions directory and the legacy global directory
(`None` = file does not exist). -/
structure FileSys where
  main : Option (List String) := none
  legacy : Option (List String) := none
  deriving Repr, DecidableEq

/-- `SessionManager._load` (lines 131-183) including the legacy
migration (`shutil.move`) and the self-healing normalization save.
Returns the loaded session (or `none`), the file system afterwards, and
whether the normalization save rewrote the file. -/
def loadStep (key now : String) (fs : FileSys) : Option Session × FileSys × Bool :=
  let fs :=
    match fs.main, fs.legacy with
    | none, some l => { main := some l, legacy := none : FileSys }
    | _, _ => fs
  match fs.main with
  | none => (none, fs, false)
  | some lines =>
    match loadFromLines key now lines with
    | none => (none, fs, false)
    | some (sess, needsNorm) =>
      if needsNorm then (some sess, { fs with main := some (saveLines sess) }, true)
      else (some sess, fs, false)

/-- The session `get_or_create` returns (lines 111-129) for one key,
given that key's cache entry and files: the cached session, else the
loaded session, else a fresh one. -/
def getOrCreateResult (key now : String) (cache : Option Session) (fs : FileSys) :
    Session :=
  match cache with
  | some s => s
  | none =>
    match (loadStep key now fs).1 with
    | some s => s
    | none => Session.fresh key now

/-- A sequence of `add_message` calls: (role, content, kwargs, now). -/
def addAll (s : Session) : List (String × String × JDict × String) → Session
  | [] => s
  | (r, c, kw, t) :: rest => addAll (s.add_message r c kw t) rest

/-! ### Dict lemmas and the save/load round trip. -/

theorem dget_cons (p : String × JVal) (d : JDict) (k : String) :
    dget (p :: d) k = if p.1 == k then some p.2 else dget d k := rfl

theorem dget_dinsert_self (d : JDict) (k : String) (v : JVal) :
    dget (dinsert d k v) k = some v := by
  unfold dinsert
  split
  · rename_i hany
    induction d with
    | nil => simp at hany
    | cons p d ih =>
      simp only [List.any_cons, Bool.or_eq_true] at hany
      by_cases hp : (p.1 == k) = true
      · have hp1 : p.1 = k := by simpa using hp
        subst hp1
        simp [dget_cons]
      · simp only [List.map_cons, dget_cons]
        rw [if_neg hp, if_neg hp]
        rcases hany with h | h
        · exact absurd h hp
        · exact ih h
  · induction d with
    | nil => simp [dget_cons]
    | cons p d ih =>
      rename_i hany
      simp only [List.any_cons, Bool.or_eq_true, not_or] at hany
      simp only [List.cons_append, dget_cons]
      rw [if_neg hany.1]
      exact ih hany.2

theorem dget_map_overwrite_other (k : String) (v : JVal) (k2 : String)
    (hne : (k == k2) = false) :
    ∀ d : JDict,
      dget (d.map (fun p => if p.1 == k then (k, v) else p)) k2 = dget d k2 := by
  intro d
  induction d with
  | nil => rfl
  | cons p d ih =>
    by_cases hp : (p.1 == k) = true
    · have hp1 : p.1 = k := by simpa using hp
      subst hp1
      rw [List.map_cons, if_pos (by simp), dget_cons, if_neg (by simp [hne]),
        dget_cons, if_neg (by simp [hne])]
      exact ih
    · simp only [List.map_cons, if_neg hp, dget_cons]
      by_cases hp2 : (p.1 == k2) = true
      · rw [if_pos hp2, if_pos hp2]
      · rw [if_neg hp2, if_neg hp2]
        exact ih

theorem dget_append_single_other (k : String) (v : JVal) (k2 : String)
    (hne : (k == k2) = false) :
    ∀ d : JDict, dget (d ++ [(k, v)]) k2 = dget d k2 := by
  intro d
  induction d with
  | nil =>
    show dget [(k, v)] k2 = dget [] k2
    rw [dget_cons, if_neg (by simp [hne])]
  | cons p d ih =>
    simp only [List.cons_append, dget_cons]
    by_cases hp2 : (p.1 == k2) = true
    · rw [if_pos hp2, if_pos hp2]
    · rw [if_neg hp2, if_neg hp2]
      exact ih

theorem dget_dinsert_other (d : JDict) (k : String) (v : JVal) (k2 : String)
    (hne : (k == k2) = false) :
    dget (dinsert d k v) k2 = dget d k2 := by
  unfold dinsert
  split
  · exact dget_map_overwrite_other k v k2 hne d
  · exact dget_append_single_other k v k2 hne d

/-- Dict-literal merge semantics for a duplicate-free keyword dict: a
key bound in `kw` gets its `kw` value, any other key keeps its `d`
value. -/
theorem dget_eq_none_of_not_mem_keys (kw : JDict) (k : String)
    (h : k ∉ kw.map Prod.fst) : dget kw k = none := by
  induction kw with
  | nil => rfl
  | cons p kw ih =>
    simp only [List.map_cons, List.mem_cons, not_or] at h
    rw [dget_cons, if_neg (by simp only [beq_iff_eq]; exact fun he => h.1 he.symm)]
    exact ih h.2

theorem dget_dmerge (d kw : JDict) (k : String) (hnd : (kw.map Prod.fst).Nodup) :
    dget (dmerge d kw) k =
      match dget kw k with
      | some v => some v
      | none => dget d k := by
  induction kw generalizing d with
  | nil => simp [dmerge, dget]
  | cons p kw ih =>
    obtain ⟨k1, v1⟩ := p
    have hstep : dmerge d ((k1, v1) :: kw) = dmerge (dinsert d k1 v1) kw := rfl
    rw [hstep]
    simp only [List.map_cons, List.nodup_cons] at hnd
    rw [ih (dinsert d k1 v1) hnd.2, dget_cons]
    by_cases hk : k1 = k
    · subst hk
      have hkw : dget kw k1 = none := dget_eq_none_of_not_mem_keys kw k1 hnd.1
      rw [hkw]
      simp [dget_dinsert_self]
    · have hne : (k1 == k) = false := by simpa using hk
      rw [if_neg (by simp [hne])]
      rw [dget_dinsert_other d k1 v1 k hne]

theorem stripChars_br (mid : List Char) :
    stripChars (lbrace :: (mid ++ [rbrace])) = lbrace :: (mid ++ [rbrace]) := by
  unfold stripChars
  have h1 : (lbrace :: (mid ++ [rbrace])).dropWhile isPyWs =
      lbrace :: (mid ++ [rbrace]) := List.dropWhile_cons_of_neg (by decide)
  rw [h1]
  have h2 : (lbrace :: (mid ++ [rbrace])).reverse = rbrace :: (mid.reverse ++ [lbrace]) := by
    simp
  rw [h2, List.dropWhile_cons_of_neg (by decide), ← h2, List.reverse_reverse]

/-- A serialized object line survives `strip()` unchanged. -/
theorem pyStrip_jdumps_obj (fields : List (String × JVal)) :
    pyStrip (jdumps (.obj fields)) = jdumps (.obj fields) := by
  show String.mk (stripChars (lbrace :: (JVal.dumpFields fields ++ [rbrace]))) = _
  rw [stripChars_br]
  rfl

/-- A serialized object line is never blank. -/
theorem jdumps_obj_ne_empty (fields : List (String × JVal)) :
    jdumps (.obj fields) ≠ "" := by
  intro h
  have h2 := congrArg String.data h
  simp only [jdumps] at h2
  exact absurd h2 (by simp [JVal.dumpChars])

/-- Messages appended by a sequence of `add_message` calls. -/
theorem addAll_messages (ops : List (String × String × JDict × String)) :
    ∀ s : Session, (addAll s ops).messages =
      s.messages ++ ops.map (fun op =>
        dmerge [("role", .str op.1), ("content", .str op.2.1),
                ("timestamp", .str op.2.2.2)] op.2.2.1) := by
  induction ops with
  | nil => intro s; simp [addAll]
  | cons op ops ih =>
    intro s
    obtain ⟨r, c, kw, t⟩ := op
    simp only [addAll, List.map_cons]
    rw [ih]
    simp [Session.add_message]

/-- Parsing the serialized message lines appends exactly the original
message dicts (none of which carries the metadata marker). -/
theorem processLines_dumps (now2 : String) : ∀ (ms : List JDict) (acc : LoadAcc),
    (∀ m ∈ ms, ¬ dget m "_type" = some (.str "metadata")) →
    processLines now2 (ms.map (fun m => jdumps (.obj m))) acc =
      some { acc with
             messages := acc.messages ++ ms,
             needsNorm := acc.needsNorm ||
               (ms.map (fun m => jdumps (.obj m))).any hasBackslashU }
  | [], acc, _ => by simp [processLines]
  | m :: ms, acc, h => by
    simp only [List.map_cons, processLines]
    rw [pyStrip_jdumps_obj m, if_neg (jdumps_obj_ne_empty m), jloads_jdumps (.obj m)]
    dsimp only
    rw [if_neg (h m (by simp))]
    rw [processLines_dumps now2 ms _ (fun m2 hm2 => h m2 (by simp [hm2]))]
    simp [List.any_cons, Bool.or_assoc]

/-- Reloading what `save` wrote reconstructs the session: the messages
come back exactly, and the escaped-text flag is exactly "some written
line contains a backslash followed by u". -/
theorem loadFromLines_saveLines (key2 now2 : String) (s : Session)
    (hmsgs : ∀ m ∈ s.messages, ¬ dget m "_type" = some (.str "metadata")) :
    loadFromLines key2 now2 (saveLines s) =
      some ({ key := key2,
              messages := s.messages,
              created_at := if s.created_at = "" then now2 else s.created_at,
              updated_at := if s.updated_at = "" then now2 else s.updated_at,
              metadata := s.metadata,
              last_consolidated := s.last_consolidated },
            (saveLines s).any hasBackslashU) := by
  have hml : metaLine s = JVal.obj
      [("_type", .str "metadata"), ("created_at", .str s.created_at),
       ("updated_at", .str s.updated_at), ("metadata", s.metadata),
       ("last_consolidated", s.last_consolidated)] := rfl
  unfold loadFromLines saveLines
  simp only [processLines, hml]
  rw [pyStrip_jdumps_obj, if_neg (jdumps_obj_ne_empty _), jloads_jdumps]
  dsimp only
  have hty : dget
      [(("_type" : String), JVal.str "metadata"), ("created_at", .str s.created_at),
       ("updated_at", .str s.updated_at), ("metadata", s.metadata),
       ("last_consolidated", s.last_consolidated)] "_type" = some (.str "metadata") := by
    simp [dget_cons]
  have hca : dget
      [(("_type" : String), JVal.str "metadata"), ("created_at", .str s.created_at),
       ("updated_at", .str s.updated_at), ("metadata", s.metadata),
       ("last_consolidated", s.last_consolidated)] "created_at" =
      some (.str s.created_at) := by
    simp [dget_cons]
  have hua : dget
      [(("_type" : String), JVal.str "metadata"), ("created_at", .str s.created_at),
       ("updated_at", .str s.updated_at), ("metadata", s.metadata),
       ("last_consolidated", s.last_consolidated)] "updated_at" =
      some (.str s.updated_at) := by
    simp [dget_cons]
  have hmd : dget
      [(("_type" : String), JVal.str "metadata"), ("created_at", .str s.created_at),
       ("updated_at", .str s.updated_at), ("metadata", s.metadata),
       ("last_consolidated", s.last_consolidated)] "metadata" = some s.metadata := by
    simp [dget_cons]
  have hlc : dget
      [(("_type" : String), JVal.str "metadata"), ("created_at", .str s.created_at),
       ("updated_at", .str s.updated_at), ("metadata", s.metadata),
       ("last_consolidated", s.last_consolidated)] "last_consolidated" =
      some s.last_consolidated := by
    simp [dget_cons]
  rw [if_pos hty, hca, hua, hmd, hlc]
  have htr : ∀ c : String, truthyOpt (some (.str c)) = !c.isEmpty := fun c => rfl
  rw [htr, htr]
  have hcomp : ∀ c : String,
      (if (!c.isEmpty) = true then
         match some (JVal.str c) with
         | some v => (fromiso v).map some
         | none => none
       else some none) = some (if c = "" then none else some c) := by
    intro c
    by_cases hc : c = ""
    · subst hc
      rw [if_neg (by decide), if_pos rfl]
    · rw [if_pos ?hpos, if_neg hc]
      · rfl
      case hpos =>
        simp only [Bool.not_eq_true']
        cases h : c.isEmpty
        · rfl
        · exact absurd ((String.isEmpty_iff c).mp h) hc
  rw [hcomp, hcomp]
  dsimp only
  rw [processLines_dumps now2 s.messages _ hmsgs]
  simp only [Option.map]
  by_cases hce : s.created_at = "" <;> by_cases hue : s.updated_at = "" <;>
    simp [hce, hue, List.any_cons]

/-- The session built by one `add_message` call carrying the reserved
metadata marker among its keyword fields. -/
def exMarkedSession : Session :=
  (Session.fresh "k" "t0").add_message "user" "hi" [("_type", JVal.str "metadata")] "t1"

/-- C3 counterexample: a message added with the extra field
`_type="metadata"` is written as a message line but read back as a
metadata line, so it vanishes from the reloaded session: `get_history 1`
returns the user message before the round trip and nothing after it. -/
theorem C3_counterexample :
    exMarkedSession.get_history 1 =
      some [[("role", JVal.str "user"), ("content", JVal.str "hi")]] ∧
    loadFromLines "k" "t2" (saveLines exMarkedSession) =
      some (Session.fresh "k" "t2", false) ∧
    (Session.fresh "k" "t2").get_history 1 = some [] := by
  refine ⟨by decide, by decide, by decide⟩

/-- C3 (amended): for every sequence of add_message calls whose keyword
fields are duplicate-free and do not bind the key _type to the string
"metadata", saving the resulting session and reloading the same key from
disk succeeds, and the reloaded session's get_history agrees with the
pre-save session's get_history at every budget. -/
theorem C3_save_reload_roundtrip (key now now2 : String)
    (ops : List (String × String × JDict × String))
    (hkw : ∀ op ∈ ops, (op.2.2.1.map Prod.fst).Nodup ∧
      ¬ dget op.2.2.1 "_type" = some (.str "metadata")) :
    ∃ sess b,
      loadFromLines key now2 (saveLines (addAll (Session.fresh key now) ops)) =
        some (sess, b) ∧
      ∀ n : Int, sess.get_history n = (addAll (Session.fresh key now) ops).get_history n := by
  have hmsgs : ∀ m ∈ (addAll (Session.fresh key now) ops).messages,
      ¬ dget m "_type" = some (.str "metadata") := by
    rw [addAll_messages]
    intro m hm
    have hm2 : m ∈ ops.map (fun op =>
        dmerge [("role", .str op.1), ("content", .str op.2.1),
                ("timestamp", .str op.2.2.2)] op.2.2.1) := by
      simpa [Session.fresh] using hm
    rw [List.mem_map] at hm2
    obtain ⟨op, hop, rfl⟩ := hm2
    have h2 := hkw op hop
    rw [dget_dmerge _ _ _ h2.1]
    cases hkwt : dget op.2.2.1 "_type" with
    | none =>
      simp [dget_cons, dget]
    | some v =>
      rw [hkwt] at h2
      simpa using h2.2
  have hl := loadFromLines_saveLines key now2 (addAll (Session.fresh key now) ops) hmsgs
  exact ⟨_, _, hl, fun n => get_history_congr _ _ rfl n⟩

/-- Witness for the amended C3 at one concrete add_message sequence. -/
theorem C3_save_reload_roundtrip_witness :
    ∃ sess b,
      loadFromLines "c:1" "t9"
          (saveLines (addAll (Session.fresh "c:1" "t0")
            [("user", "héllo", [("name", JVal.str "n")], "t1")])) =
        some (sess, b) ∧
      ∀ n : Int, sess.get_history n =
        (addAll (Session.fresh "c:1" "t0")
          [("user", "héllo", [("name", JVal.str "n")], "t1")]).get_history n :=
  C3_save_reload_roundtrip "c:1" "t0" "t9"
    [("user", "héllo", [("name", JVal.str "n")], "t1")]
    (by intro op hop; simp only [List.mem_singleton] at hop; subst hop
        exact ⟨by decide, by decide⟩)

/-- Any non-blank line that fails to parse makes the whole read loop
raise, regardless of where it sits in the file. -/
theorem processLines_none_of_malformed (now2 : String) :
    ∀ (lines : List String) (acc : LoadAcc),
      (∃ l ∈ lines, pyStrip l ≠ "" ∧ jloads (pyStrip l) = none) →
      processLines now2 lines acc = none := by
  intro lines
  induction lines with
  | nil =>
    intro acc h
    simp at h
  | cons line rest ih =>
    intro acc h
    simp only [processLines]
    obtain ⟨l, hl, hne, hjl⟩ := h
    rcases List.mem_cons.mp hl with rfl | hmem
    · rw [if_neg hne, hjl]
    · by_cases hblank : pyStrip line = ""
      · rw [if_pos hblank]
        exact ih _ ⟨l, hmem, hne, hjl⟩
      · rw [if_neg hblank]
        cases hj : jloads (pyStrip line) with
        | none => rfl
        | some data =>
          cases data with
          | obj fields =>
            dsimp only
            by_cases hty : dget fields "_type" = some (.str "metadata")
            · rw [if_pos hty]
              split
              · exact ih _ ⟨l, hmem, hne, hjl⟩
              · rfl
            · rw [if_neg hty]
              exact ih _ ⟨l, hmem, hne, hjl⟩
          | null => rfl
          | bool b => rfl
          | num n => rfl
          | str s => rfl
          | arr xs => rfl

/-- C5: if the on-disk session file for a key exists but contains a
malformed (non-blank, unparseable) line, the load returns "not found"
instead of raising, and get_or_create falls back to a fresh empty
session for that key — loading never crashes on malformed content. -/
theorem C5_malformed_load_fresh (key now : String) (fs : FileSys)
    (lines : List String) (hmain : fs.main = some lines)
    (hbad : ∃ l ∈ lines, pyStrip l ≠ "" ∧ jloads (pyStrip l) = none) :
    (loadStep key now fs).1 = none ∧
    getOrCreateResult key now none fs = Session.fresh key now := by
  have hload : loadFromLines key now lines = none := by
    unfold loadFromLines
    rw [processLines_none_of_malformed now lines {} hbad]
    rfl
  obtain ⟨main, legacy⟩ := fs
  simp only at hmain
  subst hmain
  have h1 : loadStep key now ⟨some lines, legacy⟩ = (none, ⟨some lines, legacy⟩, false) := by
    unfold loadStep
    dsimp only
    rw [hload]
  refine ⟨by rw [h1], ?_⟩
  unfold getOrCreateResult
  rw [h1]

/-- Witness for C5: a file holding a single unparseable brace. -/
theorem C5_malformed_load_fresh_witness :
    (loadStep "k" "t" ⟨some ["\x7b"], none⟩).1 = none ∧
    getOrCreateResult "k" "t" none ⟨some ["\x7b"], none⟩ = Session.fresh "k" "t" :=
  C5_malformed_load_fresh "k" "t" ⟨some ["\x7b"], none⟩ ["\x7b"] rfl
    ⟨"\x7b", by simp, by decide, by decide⟩

/-- The read loop only ever appends message dicts that do not carry the
metadata marker (a line that carries it is consumed as metadata). -/
theorem processLines_no_meta (now2 : String) :
    ∀ (lines : List String) (acc res : LoadAcc),
      processLines now2 lines acc = some res →
      (∀ m ∈ acc.messages, ¬ dget m "_type" = some (.str "metadata")) →
      ∀ m ∈ res.messages, ¬ dget m "_type" = some (.str "metadata") := by
  intro lines
  induction lines with
  | nil =>
    intro acc res h hacc
    simp only [processLines] at h
    injection h with h
    subst h
    exact hacc
  | cons line rest ih =>
    intro acc res h hacc
    simp only [processLines] at h
    by_cases hblank : pyStrip line = ""
    · rw [if_pos hblank] at h
      exact ih _ res h hacc
    · rw [if_neg hblank] at h
      cases hj : jloads (pyStrip line) with
      | none =>
        rw [hj] at h
        exact absurd h (by simp)
      | some data =>
        rw [hj] at h
        cases data with
        | obj fields =>
          dsimp only at h
          by_cases hty : dget fields "_type" = some (.str "metadata")
          · rw [if_pos hty] at h
            split at h
            · exact ih _ res h hacc
            · exact absurd h (by simp)
          · rw [if_neg hty] at h
            refine ih _ res h ?_
            intro m hm
            rcases List.mem_append.mp hm with hm | hm
            · exact hacc m hm
            · simp only [List.mem_singleton] at hm
              subst hm
              exact hty
        | null => dsimp only at h; exact absurd h (by simp)
        | bool b => dsimp only at h; exact absurd h (by simp)
        | num n => dsimp only at h; exact absurd h (by simp)
        | str s => dsimp only at h; exact absurd h (by simp)
        | arr xs => dsimp only at h; exact absurd h (by simp)

/-- Messages of any successfully loaded session never carry the
metadata marker. -/
theorem loadFromLines_no_meta (key now : String) (lines : List String)
    (s : Session) (b : Bool) (h : loadFromLines key now lines = some (s, b)) :
    ∀ m ∈ s.messages, ¬ dget m "_type" = some (.str "metadata") := by
  unfold loadFromLines at h
  cases hp : processLines now lines {} with
  | none =>
    rw [hp] at h
    exact absurd h (by simp)
  | some res =>
    rw [hp] at h
    simp only [Option.map] at h
    injection h with h2
    have hmsg : res.messages = s.messages := by
      have h3 := congrArg (fun q : Session × Bool => q.1.messages) h2
      simpa using h3
    intro m hm
    exact processLines_no_meta now lines {} res hp (by simp [LoadAcc]) m
      (by rw [hmsg]; exact hm)

/-- A session file line with an escaped non-ASCII character whose
decoded text also contains a literal backslash before a `u`. -/
def exEscapedLine : String :=
  "\x7b\"role\": \"user\", \"content\": \"caf\\u00e9 \\\\u0041\"\x7d"

/-- C6 counterexample: loading a file whose text decodes to a literal
backslash-u sequence rewrites it, but the rewritten file still contains
the two characters backslash-u (from the escaped backslash), so the
second load rewrites again — the normalization is not idempotent after
one pass. -/
theorem C6_counterexample :
    (loadStep "k" "t0" ⟨some [exEscapedLine], none⟩).2.2 = true ∧
    (loadStep "k" "t1" (loadStep "k" "t0" ⟨some [exEscapedLine], none⟩).2.1).2.2 = true ∧
    ((loadStep "k" "t1" (loadStep "k" "t0" ⟨some [exEscapedLine], none⟩).2.1).1.map
        Session.messages) =
      ((loadStep "k" "t0" ⟨some [exEscapedLine], none⟩).1.map Session.messages) := by
  refine ⟨by decide, by decide, by decide⟩

/-- C6 (amended): when loading a session file sets the escaped-text
flag, the file is rewritten as the directly-encoded serialization of the
loaded session; reloading the rewritten file reproduces the same
messages, metadata and consolidation mark (unchanged logical content),
and that second load triggers a further rewrite exactly when some
rewritten line still contains a backslash followed by the letter u
(e.g. a literal backslash-u in message text) — only in that case is the
normalization not idempotent after one pass. -/
theorem C6_normalize_self_heal (key now now2 : String) (fs : FileSys)
    (lines : List String) (hmain : fs.main = some lines)
    (s : Session) (hload : loadFromLines key now lines = some (s, true)) :
    loadStep key now fs = (some s, { fs with main := some (saveLines s) }, true) ∧
    ∃ s2, loadFromLines key now2 (saveLines s) =
        some (s2, (saveLines s).any hasBackslashU) ∧
      s2.messages = s.messages ∧ s2.metadata = s.metadata ∧
      s2.last_consolidated = s.last_consolidated ∧
      (loadStep key now2 { fs with main := some (saveLines s) }).2.2 =
        (saveLines s).any hasBackslashU := by
  obtain ⟨main, legacy⟩ := fs
  simp only at hmain
  subst hmain
  have h1 : loadStep key now ⟨some lines, legacy⟩ =
      (some s, ⟨some (saveLines s), legacy⟩, true) := by
    unfold loadStep
    dsimp only
    rw [hload]
    dsimp only
    rw [if_pos rfl]
  have hmsgs := loadFromLines_no_meta key now lines s true hload
  have h2 := loadFromLines_saveLines key now2 s hmsgs
  refine ⟨h1, _, h2, rfl, rfl, rfl, ?_⟩
  unfold loadStep
  dsimp only
  rw [h2]
  cases hb : (saveLines s).any hasBackslashU <;> simp

/-- A session file line with one escaped non-ASCII character. -/
def exEscLine : String := "\x7b\"role\": \"user\", \"content\": \"caf\\u00e9\"\x7d"

/-- The session the store loads from `exEscLine`. -/
def exLoadedSession : Session :=
  { key := "k",
    messages := [[("role", JVal.str "user"), ("content", JVal.str "café")]],
    created_at := "t7", updated_at := "t7",
    metadata := .obj [], last_consolidated := .num 0 }

/-- Witness for the amended C6 at a concrete escaped file. -/
theorem C6_normalize_self_heal_witness :
    loadStep "k" "t7" ⟨some [exEscLine], none⟩ =
      (some exLoadedSession, ⟨some (saveLines exLoadedSession), none⟩, true) ∧
    ∃ s2, loadFromLines "k" "t8" (saveLines exLoadedSession) =
        some (s2, (saveLines exLoadedSession).any hasBackslashU) ∧
      s2.messages = exLoadedSession.messages ∧
      s2.metadata = exLoadedSession.metadata ∧
      s2.last_consolidated = exLoadedSession.last_consolidated ∧
      (loadStep "k" "t8" ⟨some (saveLines exLoadedSession), none⟩).2.2 =
        (saveLines exLoadedSession).any hasBackslashU :=
  C6_normalize_self_heal "k" "t7" "t8" ⟨some [exEscLine], none⟩ [exEscLine] rfl
    exLoadedSession (by decide)

/-! ### Object identity of cached sessions (`get_or_create` /
`invalidate` / `save`).

Python object identity cannot be read off session contents, so the
cache is modelled by allocation order: every `Session` object ever
constructed by the manager gets the next allocation number, and the
cache maps keys to allocation numbers.  `get_or_create` on a miss
allocates (whether the session came from disk or was created fresh —
either way it is a new object). -/

/-- Manager operations that touch the per-key cache. -/
inductive MgrOp where
  | getOrCreate (key : String)
  | invalidate (key : String)
  | save (key : String) (sid : Nat)
  deriving Repr, DecidableEq

/-- Cache and allocation counter of one `SessionManager`. -/
structure MgrState where
  cache : List (String × Nat) := []
  nextId : Nat := 0
  deriving Repr, DecidableEq

/-- First binding of a key in the cache. -/
def cacheGet : List (String × Nat) → String → Option Nat
  | [], _ => none
  | p :: c, k => if p.1 = k then some p.2 else cacheGet c k

/-- Python dict update `cache[k] = i`. -/
def cacheSet : List (String × Nat) → String → Nat → List (String × Nat)
  | [], k, i => [(k, i)]
  | p :: c, k, i => if p.1 = k then (k, i) :: c else p :: cacheSet c k i

/-- Python `cache.pop(k, None)`. -/
def cacheDel : List (String × Nat) → String → List (String × Nat)
  | [], _ => []
  | p :: c, k => if p.1 = k then c else p :: cacheDel c k

/-- One manager operation: `get_or_create` returns the cached instance
or caches a newly allocated one (lines 111-129); `invalidate` drops the
cache entry (lines 203-205); `save` stores the saved instance in the
cache (line 201). -/
def mgrStep (st : MgrState) : MgrOp → MgrState × Option Nat
  | .getOrCreate k =>
    match cacheGet st.cache k with
    | some i => (st, some i)
    | none =>
      ({ cache := cacheSet st.cache k st.nextId, nextId := st.nextId + 1 },
       some st.nextId)
  | .invalidate k => ({ st with cache := cacheDel st.cache k }, none)
  | .save k i => ({ st with cache := cacheSet st.cache k i }, none)

/-- Run a sequence of manager operations. -/
def runOps (st : MgrState) : List MgrOp → MgrState
  | [] => st
  | op :: ops => runOps (mgrStep st op).1 ops

theorem cacheGet_set_self : ∀ (c : List (String × Nat)) (k : String) (i : Nat),
    cacheGet (cacheSet c k i) k = some i
  | [], k, i => by simp [cacheSet, cacheGet]
  | p :: c, k, i => by
    by_cases hp : p.1 = k
    · simp [cacheSet, hp, cacheGet]
    · simp only [cacheSet, if_neg hp, cacheGet]
      exact cacheGet_set_self c k i

theorem cacheGet_set_other : ∀ (c : List (String × Nat)) (k : String) (i : Nat)
    (k2 : String), k ≠ k2 → cacheGet (cacheSet c k i) k2 = cacheGet c k2
  | [], k, i, k2, h => by simp [cacheSet, cacheGet, h]
  | p :: c, k, i, k2, h => by
    by_cases hp : p.1 = k
    · simp only [cacheSet, if_pos hp, cacheGet]
      rw [if_neg h, if_neg (by rw [hp]; exact h)]
    · simp only [cacheSet, if_neg hp, cacheGet]
      by_cases hp2 : p.1 = k2
      · rw [if_pos hp2, if_pos hp2]
      · rw [if_neg hp2, if_neg hp2]
        exact cacheGet_set_other c k i k2 h

theorem cacheGet_del_other : ∀ (c : List (String × Nat)) (k k2 : String),
    k ≠ k2 → cacheGet (cacheDel c k) k2 = cacheGet c k2
  | [], k, k2, h => rfl
  | p :: c, k, k2, h => by
    by_cases hp : p.1 = k
    · simp only [cacheDel, if_pos hp, cacheGet]
      rw [if_neg (by rw [hp]; exact h)]
    · simp only [cacheDel, if_neg hp, cacheGet]
      by_cases hp2 : p.1 = k2
      · rw [if_pos hp2, if_pos hp2]
      · rw [if_neg hp2, if_neg hp2]
        exact cacheGet_del_other c k k2 h

/-- Any operation other than `invalidate key` or a `save` of a
different instance under `key` leaves `key`'s cached instance as is. -/
theorem mgrStep_preserves (st : MgrState) (k : String) (i : Nat) (op : MgrOp)
    (hc : cacheGet st.cache k = some i)
    (hop : op ≠ .invalidate k ∧ ∀ j, op = .save k j → j = i) :
    cacheGet (mgrStep st op).1.cache k = some i := by
  cases op with
  | getOrCreate k2 =>
    simp only [mgrStep]
    by_cases hk : k2 = k
    · subst hk
      rw [hc]
      dsimp only
      exact hc
    · cases hg : cacheGet st.cache k2 with
      | some j =>
        dsimp only
        exact hc
      | none =>
        dsimp only
        rw [cacheGet_set_other st.cache k2 st.nextId k hk]
        exact hc
  | invalidate k2 =>
    have hk : k2 ≠ k := fun he => hop.1 (by rw [he])
    simp only [mgrStep]
    rw [cacheGet_del_other _ _ _ hk]
    exact hc
  | save k2 j =>
    by_cases hk : k2 = k
    · subst hk
      have hj : j = i := hop.2 j rfl
      subst hj
      simp only [mgrStep]
      exact cacheGet_set_self _ _ _
    · simp only [mgrStep]
      rw [cacheGet_set_other _ _ _ _ hk]
      exact hc

/-- The invariant extends over whole runs. -/
theorem runOps_preserves (k : String) (i : Nat) :
    ∀ (ops : List MgrOp) (st : MgrState),
      cacheGet st.cache k = some i →
      (∀ op ∈ ops, op ≠ .invalidate k ∧ ∀ j, op = .save k j → j = i) →
      cacheGet (runOps st ops).cache k = some i
  | [], st, hc, _ => hc
  | op :: ops, st, hc, hops => by
    unfold runOps
    exact runOps_preserves k i ops _
      (mgrStep_preserves st k i op hc (hops op (by simp)))
      (fun op2 h2 => hops op2 (by simp [h2]))

/-- C4 counterexample: `get_or_create` returns instance 0, an
`invalidate` for the key drops it, and the next `get_or_create` returns
a different instance (1) within the same process lifetime. -/
theorem C4_counterexample :
    (mgrStep {} (.getOrCreate "k")).2 = some 0 ∧
    (mgrStep
      (mgrStep (mgrStep {} (.getOrCreate "k")).1 (.invalidate "k")).1
      (.getOrCreate "k")).2 = some 1 ∧
    (0 : Nat) ≠ 1 := by
  refine ⟨by decide, by decide, by decide⟩

/-- C4 (amended): two `get_or_create` calls for the same key return the
same in-memory instance provided no `invalidate` of that key and no
`save` of a different instance under that key happens in between. -/
theorem C4_same_instance (k : String) (st : MgrState) (ops : List MgrOp) (i : Nat)
    (h1 : (mgrStep st (.getOrCreate k)).2 = some i)
    (hops : ∀ op ∈ ops, op ≠ .invalidate k ∧ ∀ j, op = .save k j → j = i) :
    (mgrStep (runOps (mgrStep st (.getOrCreate k)).1 ops) (.getOrCreate k)).2 =
      some i := by
  have hcache : cacheGet (mgrStep st (.getOrCreate k)).1.cache k = some i := by
    simp only [mgrStep] at h1 ⊢
    cases hg : cacheGet st.cache k with
    | some j =>
      rw [hg] at h1
      dsimp only at h1 ⊢
      injection h1 with h1
      subst h1
      exact hg
    | none =>
      rw [hg] at h1
      dsimp only at h1 ⊢
      injection h1 with h1
      subst h1
      exact cacheGet_set_self _ _ _
  have hrun := runOps_preserves k i ops _ hcache hops
  revert hrun
  generalize runOps (mgrStep st (.getOrCreate k)).1 ops = st2
  intro hrun
  simp only [mgrStep]
  rw [hrun]

/-- Witness for the amended C4: foreign-key traffic and a same-instance
save between the two calls. -/
theorem C4_same_instance_witness :
    (mgrStep (runOps (mgrStep {} (.getOrCreate "k")).1
        [.getOrCreate "other", .save "k" 0, .invalidate "other"])
      (.getOrCreate "k")).2 = some 0 :=
  C4_same_instance "k" {} [.getOrCreate "other", .save "k" 0, .invalidate "other"] 0
    (by decide)
    (by intro op hop
        fin_cases hop <;> exact ⟨by decide, by intro j hj; first | (cases hj; rfl) | cases hj⟩)

/-! ### `list_sessions` (lines 207-233).

A sessions directory is a list of `(stem, contents)` pairs: the file
stem (name without the `.jsonl` suffix) and `some lines`, or `none`
when opening/reading the file raises (the `except: continue`). -/

/-- One entry of the list returned by `list_sessions`.  `created_at` /
`updated_at` hold `none` when the metadata line lacks the key, since
`data.get` then yields Python `None`. -/
structure SessSummary where
  key : String
  created_at : Option JVal
  updated_at : Option JVal
  path : String
  deriving Repr, DecidableEq

/-- `stem.replace("_", ":")` — for a one-character pattern Python's
`str.replace` is a per-character substitution. -/
def keyOfStem (stem : String) : String :=
  String.mk (stem.data.map fun c => if c = '_' then ':' else c)

/-- Per-file body of the `list_sessions` loop: read just the first
line, strip it, parse it, and keep it only when it is a metadata
record.  An unreadable file, an empty first line, malformed JSON, or
non-dict JSON (whose `.get` raises `AttributeError`, caught by the
`except`) skips the file. -/
def summaryOf (file : String × Option (List String)) : Option SessSummary :=
  match file.2 with
  | none => none
  | some lines =>
    let l := pyStrip ((lines.head?).getD "")
    if l = "" then none
    else match jloads l with
      | some (.obj fields) =>
        if dget fields "_type" = some (.str "metadata") then
          some { key := keyOfStem file.1,
                 created_at := dget fields "created_at",
                 updated_at := dget fields "updated_at",
                 path := file.1 ++ ".jsonl" }
        else none
      | _ => none

/-- Sort-key class: Python string. -/
def keyClassStr : Option JVal → Bool
  | some (.str _) => true
  | _ => false

/-- Sort-key class: Python number (bools compare as ints). -/
def keyClassNum : Option JVal → Bool
  | some (.num _) => true
  | some (.bool _) => true
  | _ => false

def keyStrOf : Option JVal → String
  | some (.str s) => s
  | _ => ""

def keyNumOf : Option JVal → Int
  | some (.num n) => n
  | some (.bool b) => if b then 1 else 0
  | _ => 0

/-- Stable descending insertion by string sort key. -/
def insDescStr (x : SessSummary) : List SessSummary → List SessSummary
  | [] => [x]
  | y :: ys =>
    if keyStrOf y.updated_at ≤ keyStrOf x.updated_at then x :: y :: ys
    else y :: insDescStr x ys

/-- Stable descending sort by string sort key. -/
def sortDescStr : List SessSummary → List SessSummary
  | [] => []
  | x :: xs => insDescStr x (sortDescStr xs)

/-- Stable descending insertion by numeric sort key. -/
def insDescNum (x : SessSummary) : List SessSummary → List SessSummary
  | [] => [x]
  | y :: ys =>
    if keyNumOf y.updated_at ≤ keyNumOf x.updated_at then x :: y :: ys
    else y :: insDescNum x ys

/-- Stable descending sort by numeric sort key. -/
def sortDescNum : List SessSummary → List SessSummary
  | [] => []
  | x :: xs => insDescNum x (sortDescNum xs)

/-- `list_sessions`: one summary per readable metadata file, then
`sorted(sessions, key=lambda x: x.get("updated_at", ""), reverse=True)`.
Every summary dict carries the key `"updated_at"`, so the lambda
returns the stored value — Python `None` when the metadata line lacked
the key, never the `""` default.  CPython's sort compares adjacent
elements while building runs, so with at least two entries it raises
`TypeError` (modelled as `none`) unless every sort key is a string or
every sort key is a number; `None` is comparable to nothing. -/
def list_sessions (files : List (String × Option (List String))) :
    Option (List SessSummary) :=
  if (files.filterMap summaryOf).length ≤ 1 then some (files.filterMap summaryOf)
  else if (files.filterMap summaryOf).all (fun x => keyClassStr x.updated_at) then
    some (sortDescStr (files.filterMap summaryOf))
  else if (files.filterMap summaryOf).all (fun x => keyClassNum x.updated_at) then
    some (sortDescNum (files.filterMap summaryOf))
  else none

theorem insDescStr_perm (x : SessSummary) : ∀ l : List SessSummary,
    (insDescStr x l).Perm (x :: l)
  | [] => List.Perm.refl _
  | y :: ys => by
    unfold insDescStr
    by_cases h : keyStrOf y.updated_at ≤ keyStrOf x.updated_at
    · rw [if_pos h]
    · rw [if_neg h]
      exact ((insDescStr_perm x ys).cons y).trans (List.Perm.swap x y ys)

theorem sortDescStr_perm : ∀ l : List SessSummary, (sortDescStr l).Perm l
  | [] => List.Perm.refl _
  | x :: xs =>
    (insDescStr_perm x (sortDescStr xs)).trans ((sortDescStr_perm xs).cons x)

theorem insDescStr_sorted (x : SessSummary) : ∀ l : List SessSummary,
    l.Sorted (fun a b => keyStrOf b.updated_at ≤ keyStrOf a.updated_at) →
    (insDescStr x l).Sorted (fun a b => keyStrOf b.updated_at ≤ keyStrOf a.updated_at)
  | [], _ => List.sorted_singleton x
  | y :: ys, h => by
    rw [List.sorted_cons] at h
    unfold insDescStr
    by_cases hle : keyStrOf y.updated_at ≤ keyStrOf x.updated_at
    · rw [if_pos hle, List.sorted_cons]
      refine ⟨?_, List.sorted_cons.mpr h⟩
      intro b hb
      rcases List.mem_cons.mp hb with hb | hb
      · subst hb; exact hle
      · exact le_trans (h.1 b hb) hle
    · rw [if_neg hle, List.sorted_cons]
      refine ⟨?_, insDescStr_sorted x ys h.2⟩
      intro b hb
      rcases List.mem_cons.mp ((insDescStr_perm x ys).mem_iff.mp hb) with hb2 | hb2
      · subst hb2; exact le_of_not_le hle
      · exact h.1 b hb2

theorem sortDescStr_sorted : ∀ l : List SessSummary,
    (sortDescStr l).Sorted (fun a b => keyStrOf b.updated_at ≤ keyStrOf a.updated_at)
  | [] => List.sorted_nil
  | x :: xs => insDescStr_sorted x (sortDescStr xs) (sortDescStr_sorted xs)

/-- `summaryOf` looks only at the first line of the file. -/
theorem summaryOf_firstLine (stem : String) (content : Option (List String)) :
    summaryOf (stem, content.map (fun ls => ls.take 1)) = summaryOf (stem, content) := by
  cases content with
  | none => rfl
  | some lines => cases lines <;> rfl

theorem filterMap_summaryOf_firstLine : ∀ files : List (String × Option (List String)),
    (files.map (fun f => (f.1, f.2.map (fun ls => ls.take 1)))).filterMap summaryOf =
      files.filterMap summaryOf
  | [] => rfl
  | f :: fs => by
    have hf : summaryOf (f.1, f.2.map fun ls => ls.take 1) = summaryOf f := by
      cases f with
      | mk a b => exact summaryOf_firstLine a b
    simp only [List.map_cons, List.filterMap_cons, hf,
      filterMap_summaryOf_firstLine fs]

theorem list_sessions_firstLine (files : List (String × Option (List String))) :
    list_sessions (files.map fun f => (f.1, f.2.map fun ls => ls.take 1)) =
      list_sessions files := by
  unfold list_sessions
  rw [filterMap_summaryOf_firstLine]

/-- A metadata line with no `updated_at` key. -/
def exMetaNoUpd : String := "\x7b\"_type\": \"metadata\"\x7d"

/-- C9 counterexample: two session files whose metadata lines are
valid JSON but carry no `updated_at` turn the sort key into Python
`None`; with two entries the sort compares them and raises `TypeError`,
so `list_sessions` crashes instead of returning the summaries — even
though each file alone lists fine. -/
theorem C9_counterexample :
    list_sessions [("a", some [exMetaNoUpd]), ("b", some [exMetaNoUpd])] = none ∧
    list_sessions [("a", some [exMetaNoUpd])] =
      some [{ key := "a", created_at := none, updated_at := none,
              path := "a.jsonl" }] := by
  refine ⟨by decide, by decide⟩

/-- C9 (amended): when every parseable metadata line carries a string
`updated_at`, `list_sessions` returns exactly the summaries of the
readable metadata files — unreadable, empty, malformed and non-metadata
files skipped — sorted by `updated_at` descending, and it reads only
the first line of each file. -/
theorem C9_list_sessions_sorted (files : List (String × Option (List String)))
    (hstr : ∀ s ∈ files.filterMap summaryOf, keyClassStr s.updated_at = true) :
    ∃ l, list_sessions files = some l ∧
      l.Perm (files.filterMap summaryOf) ∧
      l.Sorted (fun a b => keyStrOf b.updated_at ≤ keyStrOf a.updated_at) ∧
      list_sessions (files.map fun f => (f.1, f.2.map fun ls => ls.take 1)) =
        list_sessions files := by
  by_cases hlen : (files.filterMap summaryOf).length ≤ 1
  · refine ⟨files.filterMap summaryOf, ?_, List.Perm.refl _, ?_,
      list_sessions_firstLine files⟩
    · unfold list_sessions
      rw [if_pos hlen]
    · cases hm : files.filterMap summaryOf with
      | nil => exact List.sorted_nil
      | cons a l =>
        cases l with
        | nil => exact List.sorted_singleton a
        | cons b l2 =>
          rw [hm] at hlen
          simp at hlen
  · have hall : (files.filterMap summaryOf).all
        (fun x => keyClassStr x.updated_at) = true :=
      List.all_eq_true.mpr (fun x hx => hstr x hx)
    refine ⟨sortDescStr (files.filterMap summaryOf), ?_, sortDescStr_perm _,
      sortDescStr_sorted _, list_sessions_firstLine files⟩
    unfold list_sessions
    rw [if_neg hlen, if_pos hall]

/-- Metadata lines with string timestamps, second one newer. -/
def exMetaA : String :=
  "\x7b\"_type\": \"metadata\", \"updated_at\": \"2025-01-01T00:00:00\"\x7d"

def exMetaB : String :=
  "\x7b\"_type\": \"metadata\", \"updated_at\": \"2025-06-01T00:00:00\"\x7d"

/-- Witness for the amended C9 on a directory with two metadata files,
one malformed file and one unreadable file. -/
theorem C9_list_sessions_sorted_witness :
    ∃ l, list_sessions [("a_1", some [exMetaA]), ("bad", some ["nope"]),
        ("c", none), ("b_2", some [exMetaB])] = some l ∧
      l.Perm ([("a_1", some [exMetaA]), ("bad", some ["nope"]),
        ("c", none), ("b_2", some [exMetaB])].filterMap summaryOf) ∧
      l.Sorted (fun a b => keyStrOf b.updated_at ≤ keyStrOf a.updated_at) ∧
      list_sessions ([("a_1", some [exMetaA]), ("bad", some ["nope"]),
          ("c", none), ("b_2", some [exMetaB])].map
        fun f => (f.1, f.2.map fun ls => ls.take 1)) =
        list_sessions [("a_1", some [exMetaA]), ("bad", some ["nope"]),
          ("c", none), ("b_2", some [exMetaB])] :=
  C9_list_sessions_sorted
    [("a_1", some [exMetaA]), ("bad", some ["nope"]),
     ("c", none), ("b_2", some [exMetaB])]
    (by decide)

end Nanobot
